import Mathlib

/-!
# Set containers of the word checker: chained hash set and AVL set

Shallow embedding of `HashSet.hpp` and `AVLSet.hpp`.

* A collision chain (`Node*` linked through `next`) is the list of its `data`
  fields, head first; the null pointer is the empty list.
* The bucket array `arrPtr` is the list of its chains.
* `unsigned int` arithmetic is arithmetic modulo `2 ^ 32`.
* A tree node pointer is a value of `AVLSet.Node`; the null pointer is
  `AVLSet.Node.null`.  Functions that dereference a pointer return `none`
  where the source dereferences the null pointer.
-/

namespace WordSets

/-- Number of values of the C++ type `unsigned int`. -/
def UINT : Nat := 2 ^ 32

/-! ## HashSet.hpp -/

/-- State of a `HashSet<ElementType>`: the bucket array, its length and the
element counter.  The hash function is passed to every operation. -/
structure HashSet (α : Type) where
  arrPtr : List (List α)
  capacity : Nat
  currSize : Nat
deriving DecidableEq

namespace HashSet

variable {α : Type} [DecidableEq α]

/-- The constant `DEFAULT_CAPACITY`. -/
def DEFAULT_CAPACITY : Nat := 10

/-- The effect of `arrPtr = new Node*[capacity]; fillEmpty();`: an array of
`capacity` null chains. -/
def fillEmpty (capacity : Nat) : List (List α) :=
  List.replicate capacity []

/-- The constructor `HashSet(HashFunction)`: default capacity, size zero,
every bucket empty. -/
def new : HashSet α :=
  { arrPtr := fillEmpty DEFAULT_CAPACITY, capacity := DEFAULT_CAPACITY, currSize := 0 }

/-- The bucket index `((unsigned int) hashFunction(element)) % capacity`. -/
def index (hash : α → Nat) (s : HashSet α) (element : α) : Nat :=
  (hash element % UINT) % s.capacity

/-- The chain stored at `arrPtr[i]`. -/
def bucket (s : HashSet α) (i : Nat) : List α :=
  s.arrPtr.getD i []

/-- Method `addNode`: append a new node at the tail of the chain of the element's
bucket and increment `currSize`. -/
def addNode (hash : α → Nat) (s : HashSet α) (element : α) : HashSet α :=
  { arrPtr := s.arrPtr.set (index hash s element) (bucket s (index hash s element) ++ [element]),
    capacity := s.capacity,
    currSize := (s.currSize + 1) % UINT }

/-- The chain walk shared by `contains` and `isElementAtIndex`: true at the
first node whose `data` equals `element`, false at the end of the chain. -/
def chainHas (element : α) : List α → Bool
  | [] => false
  | data :: next => if data = element then true else chainHas element next

/-- The chain walk of `elementsAtIndex`: counts the nodes of a chain. -/
def chainCount : List α → Nat
  | [] => 0
  | _ :: next => (chainCount next + 1) % UINT

/-- Method `HashSet::contains`: walk the chain of the element's bucket. -/
def contains (hash : α → Nat) (s : HashSet α) (element : α) : Bool :=
  chainHas element (bucket s (index hash s element))

/-- Method `HashSet::size`: the member `currSize`. -/
def size (s : HashSet α) : Nat := s.currSize

/-- The inner `while` loop of the rehash in `add`: every node of one old
chain is passed to `addNode`, head first. -/
def rehashChain (hash : α → Nat) (s : HashSet α) : List α → HashSet α
  | [] => s
  | data :: next => rehashChain hash (addNode hash s data) next

/-- The outer `for` loop of the rehash in `add`: the old buckets are walked
in index order. -/
def rehash (hash : α → Nat) (s : HashSet α) : List (List α) → HashSet α
  | [] => s
  | chain :: rest => rehash hash (rehashChain hash s chain) rest

/-- The test `currSize/capacity > 0.8`: both operands are `unsigned int`, so
the quotient is the truncating integer quotient; it is converted to `double`
and compared with `0.8`, that is `q > 8/10`, that is `8 < 10 * q`. -/
def loadExceeds (s : HashSet α) : Bool :=
  decide (8 < 10 * (s.currSize / s.capacity))

/-- Method `HashSet::add`.  On the resize path the element is first appended to the old
array, then `capacity = capacity * 2`, a fresh array is allocated, `currSize`
is reset and every node of the old array is re-inserted. -/
def add (hash : α → Nat) (s : HashSet α) (element : α) : HashSet α :=
  if !contains hash s element then
    if loadExceeds s then
      let s1 := addNode hash s element
      let badArrPtr := s1.arrPtr
      let capacity := (s1.capacity * 2) % UINT
      let s2 : HashSet α := { arrPtr := fillEmpty capacity, capacity := capacity, currSize := 0 }
      rehash hash s2 badArrPtr
    else
      addNode hash s element
  else
    s

/-- Method `elementsAtIndex`: zero for an index outside the array, the length
of the chain otherwise. -/
def elementsAtIndex (s : HashSet α) (index : Nat) : Nat :=
  if index ≥ s.capacity then 0 else chainCount (bucket s index)

/-- Method `isElementAtIndex`: false for an index outside the array, the chain
walk otherwise. -/
def isElementAtIndex (s : HashSet α) (element : α) (index : Nat) : Bool :=
  if index ≥ s.capacity then false else chainHas element (bucket s index)

/-- A sequence of `add` calls applied to a newly constructed set. -/
def addAll (hash : α → Nat) (xs : List α) : HashSet α :=
  xs.foldl (add hash) new

/-- The copy constructor `HashSet(const HashSet& s)`.  The member initialisers
set `capacity{s.capacity}` and `currSize{s.currSize}`; the body allocates a
fresh array and passes every node of every chain of `s` to `addNode`.  The
hash function member of the copy is `impl_::HashSet__undefinedHashFunction`
(a call of `std::hash`), here the parameter `undefinedHashFunction`: it is
the hash function of every later operation on the copy. -/
def copy (undefinedHashFunction : α → Nat) (s : HashSet α) : HashSet α :=
  rehash undefinedHashFunction
    { arrPtr := fillEmpty s.capacity, capacity := s.capacity, currSize := s.currSize }
    s.arrPtr

end HashSet

/-! ## AVLSet.hpp -/

namespace AVLSet

/-- A `Node*`: either the null pointer or a node with its `data`, its `left`
and `right` children and its `depth` field. -/
inductive Node (α : Type) where
  | null : Node α
  | mk (data : α) (left right : Node α) (depth : Int) : Node α
deriving DecidableEq

end AVLSet

/-- State of an `AVLSet<ElementType>`: the members `treeSize`, `treeHeight`,
`balance` and `root`. -/
structure AVLSet (α : Type) where
  treeSize : Int
  treeHeight : Int
  balance : Bool
  root : AVLSet.Node α
deriving DecidableEq

namespace AVLSet

variable {α : Type} [LinearOrder α]

/-- Method `getMax`: the larger of two depths. -/
def getMax (rootLeft rootRight : Int) : Int :=
  if rootLeft > rootRight then rootLeft else rootRight

/-- Method `getDepth`: zero for the null pointer, the stored `depth` otherwise. -/
def getDepth : Node α → Int
  | .null => 0
  | .mk _ _ _ depth => depth

/-- Method `leftRotate(Node*& root)`.  With `a = root->right` and
`b = a->left` the source assigns `a->left = root`, `root->right = b`,
recomputes `root->depth` and then `a->depth`.  The reference `root` itself is never assigned, so the
caller's pointer still designates the old node, whose right child is now `b`.
The result is the pair of the tree now hanging at the reference and the tree
rooted at `a`, which no pointer of the set designates any more.  A null
`root` or a null `a` is dereferenced: `none`. -/
def leftRotate : Node α → Option (Node α × Node α)
  | .mk x l (.mk y b r _) _ =>
      let root := Node.mk x l b (getMax (getDepth l) (getDepth b) + 1)
      let a := Node.mk y root r (getMax (getDepth root) (getDepth r) + 1)
      some (root, a)
  | _ => none

/-- Method `rightRotate(Node*& root)`.  With `a = root->left` and
`b = a->right` the source assigns `a->right = root`, `root->left = b` and
recomputes `root->depth` twice (the second assignment stores the same value
again); `a->depth` keeps its value and the reference `root` is never
assigned.  The result is the pair of the tree now hanging at the reference
and the tree rooted at `a`.  A null `root` or a null `a` is dereferenced:
`none`. -/
def rightRotate : Node α → Option (Node α × Node α)
  | .mk x (.mk y l b dy) r _ =>
      let root := Node.mk x b r (getMax (getDepth b) (getDepth r) + 1)
      let a := Node.mk y l root dy
      some (root, a)
  | _ => none

/-- The first `if` of the rebalancing block of `addElement`, commented
"Right Right Case". -/
def caseRightRight : Node α → Option (Node α)
  | .null => none
  | .mk x l r d =>
      if getDepth l - getDepth r < -1 then
        match r with
        | .null => none
        | .mk y _ _ _ =>
            if y < x then (leftRotate (.mk x l r d)).map Prod.fst
            else some (.mk x l r d)
      else some (.mk x l r d)

/-- The second `if` of the rebalancing block, commented "Right Left Case":
`rightRotate(root->right); leftRotate(root);`. -/
def caseRightLeft : Node α → Option (Node α)
  | .null => none
  | .mk x l r d =>
      if getDepth l - getDepth r < -1 then
        match r with
        | .null => none
        | .mk y _ _ _ =>
            if y > x then
              (rightRotate r).bind fun p => (leftRotate (.mk x l p.1 d)).map Prod.fst
            else some (.mk x l r d)
      else some (.mk x l r d)

/-- The third `if` of the rebalancing block, commented "Left Left Case". -/
def caseLeftLeft : Node α → Option (Node α)
  | .null => none
  | .mk x l r d =>
      if getDepth l - getDepth r > 1 then
        match l with
        | .null => none
        | .mk y _ _ _ =>
            if y > x then (rightRotate (.mk x l r d)).map Prod.fst
            else some (.mk x l r d)
      else some (.mk x l r d)

/-- The fourth `if` of the rebalancing block, commented "Left Right Case":
`leftRotate(root->left); rightRotate(root);`. -/
def caseLeftRight : Node α → Option (Node α)
  | .null => none
  | .mk x l r d =>
      if getDepth l - getDepth r > 1 then
        match l with
        | .null => none
        | .mk y _ _ _ =>
            if y < x then
              (leftRotate l).bind fun p => (rightRotate (.mk x p.1 r d)).map Prod.fst
            else some (.mk x l r d)
      else some (.mk x l r d)

/-- The block of four consecutive `if` statements that `addElement` runs after
the recursive call when `balance` is set (the same text in the left and in
the right branch). -/
def rebalance (root : Node α) : Option (Node α) :=
  (((caseRightRight root).bind caseRightLeft).bind caseLeftLeft).bind caseLeftRight

/-- Method `addElement(element, root)`: the result is the tree hanging at the
reference `root` afterwards, or `none` when a null pointer is dereferenced.
Only the left branch with `balance` set recomputes `root->depth`. -/
def addElement (balance : Bool) (element : α) : Node α → Option (Node α)
  | .null => some (.mk element .null .null 1)
  | .mk x l r d =>
      if element < x then
        if balance then
          (addElement balance element l).bind fun l1 =>
            rebalance (.mk x l1 r (getMax (getDepth r) (getDepth l1) + 1))
        else
          (addElement balance element l).map fun l1 => .mk x l1 r d
      else if element > x then
        if balance then
          (addElement balance element r).bind fun r1 => rebalance (.mk x l r1 d)
        else
          (addElement balance element r).map fun r1 => .mk x l r1 d
      else some (.mk x l r d)

/-- The loop of `contains`, started at `temp`.  For a linear order one of the
three tests succeeds at every node, so the last branch (where the source
would test the same node again) is never taken. -/
def containsFrom (element : α) : Node α → Bool
  | .null => false
  | .mk x l r _ =>
      if x = element then true
      else if element > x then containsFrom element r
      else if element < x then containsFrom element l
      else false

/-- The constructor `AVLSet(bool shouldBalance)`. -/
def new (shouldBalance : Bool) : AVLSet α :=
  { treeSize := 0, treeHeight := 0, balance := shouldBalance, root := .null }

/-- Method `AVLSet::contains`: the loop started at the member `root`. -/
def contains (s : AVLSet α) (element : α) : Bool :=
  containsFrom element s.root

/-- Method `AVLSet::add`: `addElement` and `treeSize += 1` when the element is
not contained; `none` when `addElement` dereferences a null pointer. -/
def add (s : AVLSet α) (element : α) : Option (AVLSet α) :=
  if !contains s element then
    (addElement s.balance element s.root).map fun root1 =>
      { s with root := root1, treeSize := s.treeSize + 1 }
  else some s

/-- Method `AVLSet::size`: the `int` member `treeSize` converted to
`unsigned int`. -/
def size (s : AVLSet α) : Nat :=
  (s.treeSize % (UINT : Int)).toNat

/-- Method `height`: `-1` for the null root, the stored `depth` of the root
otherwise. -/
def height (s : AVLSet α) : Int :=
  match s.root with
  | .null => -1
  | .mk _ _ _ depth => depth

/-- Method `preorder(visit)`: the list of the arguments of the calls of
`visit`, in order.  The body in the source is empty. -/
def preorder (_s : AVLSet α) : List α := []

/-- Method `inorder(visit)`: the list of the arguments of the calls of
`visit`, in order.  The body in the source is empty. -/
def inorder (_s : AVLSet α) : List α := []

/-- Method `postorder(visit)`: the list of the arguments of the calls of
`visit`, in order.  The body in the source is empty. -/
def postorder (_s : AVLSet α) : List α := []

/-- A sequence of `add` calls applied to a set; `none` as soon as one of the
calls dereferences a null pointer. -/
def addMany (s : AVLSet α) : List α → Option (AVLSet α)
  | [] => some s
  | x :: xs => (add s x).bind fun s1 => addMany s1 xs

/-- A sequence of `add` calls applied to a newly constructed set. -/
def addAll (shouldBalance : Bool) (xs : List α) : Option (AVLSet α) :=
  addMany (new shouldBalance) xs

end AVLSet

/-! ## AVLSet.hpp with explicit node objects

The embedding above represents a set by the tree its `root` pointer reaches,
which is all one set can observe of itself.  Two `AVLSet` objects can hold
pointers to the same node objects, so the functions are embedded a second time
over an explicit store: a node object has an address, `left` and `right` hold
addresses, and a `Node*&` parameter is the pointer variable it designates. -/

namespace AVLStore

/-- A `Node` object: `data`, the pointers `left` and `right` (`none` is the
null pointer, `some p` the address `p`) and `depth`. -/
structure Cell (α : Type) where
  data : α
  left : Option Nat
  right : Option Nat
  depth : Int
deriving DecidableEq

/-- A `Node*&`: the pointer variable the reference designates, either the
`root` member of the set running the method or the `left` or `right` field of
the node at an address. -/
inductive Ref where
  | member : Ref
  | left (p : Nat) : Ref
  | right (p : Nat) : Ref
deriving DecidableEq

/-- The memory a method of one set works on: the node objects by address
(`new Node` takes the next address) and the `root` member of that set. -/
structure Store (α : Type) where
  cells : List (Cell α)
  root : Option Nat
deriving DecidableEq

/-- An `AVLSet` object: the members `treeSize`, `treeHeight`, `balance` and
the pointer `root`. -/
structure Obj where
  treeSize : Int
  treeHeight : Int
  balance : Bool
  root : Option Nat
deriving DecidableEq

variable {α : Type} [LinearOrder α]

/-- The pointer held by the variable a reference designates. -/
def load (m : Store α) : Ref → Option (Option Nat)
  | .member => some m.root
  | .left p => m.cells[p]?.map fun c => c.left
  | .right p => m.cells[p]?.map fun c => c.right

/-- The node object a pointer points to; `none` for the null pointer. -/
def deref (m : Store α) (ptr : Option Nat) : Option (Cell α) :=
  ptr.bind fun p => m.cells[p]?

/-- The assignment `p->left = v`. -/
def setLeft (m : Store α) (p : Nat) (v : Option Nat) : Store α :=
  match m.cells[p]? with
  | some c => { m with cells := m.cells.set p { c with left := v } }
  | none => m

/-- The assignment `p->right = v`. -/
def setRight (m : Store α) (p : Nat) (v : Option Nat) : Store α :=
  match m.cells[p]? with
  | some c => { m with cells := m.cells.set p { c with right := v } }
  | none => m

/-- The assignment `p->depth = d`. -/
def setDepth (m : Store α) (p : Nat) (d : Int) : Store α :=
  match m.cells[p]? with
  | some c => { m with cells := m.cells.set p { c with depth := d } }
  | none => m

/-- An assignment to the variable a reference designates. -/
def assign (m : Store α) (v : Option Nat) : Ref → Store α
  | .member => { m with root := v }
  | .left p => setLeft m p v
  | .right p => setRight m p v

/-- Method `getDepth`. -/
def getDepth (m : Store α) : Option Nat → Option Int
  | none => some 0
  | some p => m.cells[p]?.map fun c => c.depth

/-- The value `getMax(getDepth(p->left), getDepth(p->right)) + 1`. -/
def depthOfChildren (m : Store α) (p : Nat) : Option Int :=
  (deref m (some p)).bind fun c =>
    (getDepth m c.left).bind fun dl =>
      (getDepth m c.right).map fun dr => AVLSet.getMax dl dr + 1

/-- Method `leftRotate(Node*& root)`: `a = root->right`, `b = a->left`,
`a->left = root`, `root->right = b`, then the two depth assignments.  The
variable designated by `root` is not assigned. -/
def leftRotate (m : Store α) (r : Ref) : Option (Store α) :=
  (load m r).bind fun root => root.bind fun p =>
    (deref m (some p)).bind fun x => x.right.bind fun a =>
      (deref m (some a)).bind fun y =>
        let b := y.left
        let m1 := setLeft m a (some p)
        let m2 := setRight m1 p b
        (depthOfChildren m2 p).bind fun d =>
          let m3 := setDepth m2 p d
          (depthOfChildren m3 a).map fun da => setDepth m3 a da

/-- Method `rightRotate(Node*& root)`: `a = root->left`, `b = a->right`,
`a->right = root`, `root->left = b`, then the assignment to `root->depth`,
twice.  The variable designated by `root` is not assigned. -/
def rightRotate (m : Store α) (r : Ref) : Option (Store α) :=
  (load m r).bind fun root => root.bind fun p =>
    (deref m (some p)).bind fun x => x.left.bind fun a =>
      (deref m (some a)).bind fun y =>
        let b := y.right
        let m1 := setRight m a (some p)
        let m2 := setLeft m1 p b
        (depthOfChildren m2 p).bind fun d =>
          let m3 := setDepth m2 p d
          (depthOfChildren m3 p).map fun d2 => setDepth m3 p d2

/-- The value `getDepth(root->left) - getDepth(root->right)` together with
the node object `*root`. -/
def balanceFactor (m : Store α) (r : Ref) : Option (Nat × Cell α × Int) :=
  (load m r).bind fun root => root.bind fun p =>
    (deref m (some p)).bind fun x =>
      (getDepth m x.left).bind fun dl =>
        (getDepth m x.right).map fun dr => (p, x, dl - dr)

/-- The first `if` of the rebalancing block ("Right Right Case"). -/
def caseRightRight (m : Store α) (r : Ref) : Option (Store α) :=
  (balanceFactor m r).bind fun (_, x, bf) =>
    if bf < -1 then
      (deref m x.right).bind fun y =>
        if y.data < x.data then leftRotate m r else some m
    else some m

/-- The second `if` of the rebalancing block ("Right Left Case"). -/
def caseRightLeft (m : Store α) (r : Ref) : Option (Store α) :=
  (balanceFactor m r).bind fun (p, x, bf) =>
    if bf < -1 then
      (deref m x.right).bind fun y =>
        if y.data > x.data then
          (rightRotate m (.right p)).bind fun m1 => leftRotate m1 r
        else some m
    else some m

/-- The third `if` of the rebalancing block ("Left Left Case"). -/
def caseLeftLeft (m : Store α) (r : Ref) : Option (Store α) :=
  (balanceFactor m r).bind fun (_, x, bf) =>
    if bf > 1 then
      (deref m x.left).bind fun y =>
        if y.data > x.data then rightRotate m r else some m
    else some m

/-- The fourth `if` of the rebalancing block ("Left Right Case"). -/
def caseLeftRight (m : Store α) (r : Ref) : Option (Store α) :=
  (balanceFactor m r).bind fun (p, x, bf) =>
    if bf > 1 then
      (deref m x.left).bind fun y =>
        if y.data < x.data then
          (leftRotate m (.left p)).bind fun m1 => rightRotate m1 r
        else some m
    else some m

/-- The block of four consecutive `if` statements of `addElement`. -/
def rebalance (m : Store α) (r : Ref) : Option (Store α) :=
  (((caseRightRight m r).bind fun m1 => caseRightLeft m1 r).bind
    fun m2 => caseLeftLeft m2 r).bind fun m3 => caseLeftRight m3 r

/-- Method `addElement(element, root)`, with a bound on the depth of the
recursion: `none` when the bound is reached or a null pointer is
dereferenced. -/
def addElement (balance : Bool) (element : α) : Nat → Ref → Store α → Option (Store α)
  | 0, _, _ => none
  | fuel + 1, r, m =>
      (load m r).bind fun root =>
        match root with
        | none =>
            some (assign { m with cells := m.cells ++ [⟨element, none, none, 1⟩] }
              (some m.cells.length) r)
        | some p =>
            (deref m (some p)).bind fun x =>
              if element < x.data then
                if balance then
                  (addElement balance element fuel (.left p) m).bind fun m1 =>
                    ((load m1 r).bind fun root1 => root1.bind fun p1 =>
                      (deref m1 (some p1)).bind fun x1 =>
                        (getDepth m1 x1.right).bind fun dr =>
                          (getDepth m1 x1.left).map fun dl =>
                            setDepth m1 p1 (AVLSet.getMax dr dl + 1)).bind
                      fun m2 => rebalance m2 r
                else addElement balance element fuel (.left p) m
              else if element > x.data then
                if balance then
                  (addElement balance element fuel (.right p) m).bind fun m1 => rebalance m1 r
                else addElement balance element fuel (.right p) m
              else some m

/-- The loop of `contains`, with a bound on the number of iterations. -/
def containsFrom (cells : List (Cell α)) (element : α) : Nat → Option Nat → Option Bool
  | 0, _ => none
  | _ + 1, none => some false
  | fuel + 1, some p =>
      cells[p]?.bind fun x =>
        if x.data = element then some true
        else if element > x.data then containsFrom cells element fuel x.right
        else if element < x.data then containsFrom cells element fuel x.left
        else none

/-- The constructor `AVLSet(bool shouldBalance)`. -/
def new (shouldBalance : Bool) : Obj :=
  { treeSize := 0, treeHeight := 0, balance := shouldBalance, root := none }

/-- The copy constructor `AVLSet(const AVLSet& s)`: the four members are
copied, `root` as a pointer; no node object is created. -/
def copy (s : Obj) : Obj :=
  { treeSize := s.treeSize, treeHeight := s.treeHeight, balance := s.balance, root := s.root }

/-- Method `contains` of the object `o` in the memory `cells`. -/
def contains (fuel : Nat) (cells : List (Cell α)) (o : Obj) (element : α) : Option Bool :=
  containsFrom cells element fuel o.root

/-- Method `add` of the object `o` in the memory `cells`: the new memory and
the new value of the object. -/
def add (fuel : Nat) (cells : List (Cell α)) (o : Obj) (element : α) :
    Option (List (Cell α) × Obj) :=
  (contains fuel cells o element).bind fun found =>
    if !found then
      (addElement o.balance element fuel .member ⟨cells, o.root⟩).map fun m =>
        (m.cells, { o with root := m.root, treeSize := o.treeSize + 1 })
    else some (cells, o)

/-- Method `size`. -/
def size (o : Obj) : Nat :=
  (o.treeSize % (UINT : Int)).toNat

/-- A sequence of `add` calls of one object. -/
def addMany (fuel : Nat) (cells : List (Cell α)) (o : Obj) :
    List α → Option (List (Cell α) × Obj)
  | [] => some (cells, o)
  | x :: xs => (add fuel cells o x).bind fun q => addMany fuel q.1 q.2 xs

/-- The tree a pointer reaches, as a value of `AVLSet.Node`. -/
def toTree (cells : List (Cell α)) : Nat → Option Nat → Option (AVLSet.Node α)
  | 0, _ => none
  | _ + 1, none => some .null
  | fuel + 1, some p =>
      cells[p]?.bind fun x =>
        (toTree cells fuel x.left).bind fun l =>
          (toTree cells fuel x.right).map fun r => .mk x.data l r x.depth

end AVLStore

/-! ## WordChecker.cpp

A `std::string` is the list of its characters.  The member `words` is a
reference to a `Set<std::string>`; of its interface only `contains` matters
here, a pure query, passed as the parameter `contains`.  The loop counters
are `unsigned`; words are shorter than `2 ^ 32` characters. -/

namespace WordChecker

/-- The local `allLetters`. -/
def allLetters : List Char := "ABCDEFGHIJKLMNOPQRSTUVWXYZ".toList

/-- The statement that follows every successful `words.contains` test:
`push_back(bob)` unless `std::find` finds `bob` in the vector. -/
def pushIfAbsent (allSuggestionsVector : List (List Char)) (bob : List Char) :
    List (List Char) :=
  if bob ∈ allSuggestionsVector then allSuggestionsVector else allSuggestionsVector ++ [bob]

/-- The body shared by the first four loops, after `bob` is built:
`if (words.contains(bob))` followed by the guarded `push_back`. -/
def suggest (contains : List Char → Bool) (allSuggestionsVector : List (List Char))
    (bob : List Char) : List (List Char) :=
  if contains bob then pushIfAbsent allSuggestionsVector bob else allSuggestionsVector

/-- The loop commented "Delete": `bob.erase(bob.begin() + i)` for every
`i < word.size()`. -/
def deleteLoop (contains : List Char → Bool) (word : List Char) (v : List (List Char)) :
    List (List Char) :=
  (List.range word.length).foldl (fun v i => suggest contains v (word.eraseIdx i)) v

/-- The loop commented "Replace each char": `bob[i] = allLetters[j]` for
every `i < word.size()` and, inside, every `j < allLetters.length()`. -/
def replaceLoop (contains : List Char → Bool) (word : List Char) (v : List (List Char)) :
    List (List Char) :=
  (List.range word.length).foldl
    (fun v i => allLetters.foldl (fun v letter => suggest contains v (word.set i letter)) v) v

/-- The three assignments of the "Swap each pair" loop: `tim = bob[i]`,
`bob[i] = bob[i + 1]`, `bob[i + 1] = tim`.  For `i + 1 = bob.size()` the
expression `bob[i + 1]` designates the terminating null character: it is read
as the null character, and the assignment to it changes none of the
`bob.size()` characters of the string. -/
def swapPair (word : List Char) (i : Nat) : List Char :=
  let bob := word
  let tim := bob.getD i (Char.ofNat 0)
  let bob := bob.set i (bob.getD (i + 1) (Char.ofNat 0))
  bob.set (i + 1) tim

/-- The loop commented "Swap each pair", for every `i < word.size()`. -/
def swapLoop (contains : List Char → Bool) (word : List Char) (v : List (List Char)) :
    List (List Char) :=
  (List.range word.length).foldl (fun v i => suggest contains v (swapPair word i)) v

/-- The loop commented "Insert": `bob.insert(i, 1, allLetters[j])` for every
`i < word.size()` and, inside, every `j < allLetters.size()`. -/
def insertLoop (contains : List Char → Bool) (word : List Char) (v : List (List Char)) :
    List (List Char) :=
  (List.range word.length).foldl
    (fun v i =>
      allLetters.foldl (fun v letter => suggest contains v (word.insertIdx i letter)) v) v

/-- The call `word.substr(pos, len)` for `pos ≤ word.size()`: at most `len`
characters from position `pos` on. -/
def substr (word : List Char) (pos len : Nat) : List Char :=
  (word.drop pos).take len

/-- The loop commented "ADD Space", for every `i < word.size() - 1` of a
non-empty word: `bob = word.substr(i, i + 1)`,
`bob2 = word.substr(i + 1, word.length())`, and both are pushed (each unless
already present) when `words.contains(bob2) && words.contains(bob)`. -/
def spaceLoop (contains : List Char → Bool) (word : List Char) (v : List (List Char)) :
    List (List Char) :=
  (List.range (word.length - 1)).foldl
    (fun v i =>
      let bob := substr word i (i + 1)
      let bob2 := substr word (i + 1) word.length
      if contains bob2 && contains bob then pushIfAbsent (pushIfAbsent v bob) bob2 else v) v

/-- Method `findSuggestions`.  For the empty word the bound
`word.size() - 1` of the last loop wraps around and its first iteration calls
`word.substr(1, 0)`, which throws `std::out_of_range`: `none`. -/
def findSuggestions (contains : List Char → Bool) (word : List Char) :
    Option (List (List Char)) :=
  if word.length = 0 then none
  else
    some (spaceLoop contains word
      (insertLoop contains word
        (swapLoop contains word
          (replaceLoop contains word
            (deleteLoop contains word [])))))

/-- Method `wordExists`. -/
def wordExists (contains : List Char → Bool) (word : List Char) : Bool :=
  contains word

end WordChecker

/-! ### Notions used to state the tree invariants -/

namespace AVLSet

variable {α : Type}

/-- The elements of a tree in in-order: left subtree, node, right subtree. -/
def keys : Node α → List α
  | .null => []
  | .mk x l r _ => keys l ++ x :: keys r

/-- The actual height of a tree: `-1` for the absent tree, otherwise one more
than the larger of the actual heights of the two subtrees. -/
def actualHeight : Node α → Int
  | .null => -1
  | .mk _ l r _ => 1 + max (actualHeight l) (actualHeight r)

/-- The balance condition (TI2) at every node, on actual heights:
`|height(left) - height(right)| ≤ 1`. -/
def isBalanced : Node α → Bool
  | .null => true
  | .mk _ l r _ =>
      decide ((actualHeight l - actualHeight r).natAbs ≤ 1) && isBalanced l && isBalanced r

/-- Height correctness (TI3) at every node, on the stored `depth` fields with
the value of `getDepth` for an absent child. -/
def depthsCorrect : Node α → Bool
  | .null => true
  | .mk _ l r d =>
      decide (d = 1 + max (getDepth l) (getDepth r)) && depthsCorrect l && depthsCorrect r

/-- The right-only chain of the elements of a list, first element at the
root, every node with the `depth` of a new leaf. -/
def chain : List α → Node α
  | [] => .null
  | x :: xs => .mk x .null (chain xs) 1

/-- The balancing set whose tree is the right-only chain of a list and whose
`treeSize` is `k`. -/
def chainSet (k : Int) (xs : List α) : AVLSet α :=
  { treeSize := k, treeHeight := 0, balance := true, root := chain xs }

/-- The guards of the four `if` statements of the rebalancing block are false
at every node: on the stored depths, `getDepth(left) - getDepth(right)` is
neither below `-1` nor above `1`, so that no rotation is performed there. -/
def guardsOff : Node α → Bool
  | .null => true
  | .mk _ l r _ =>
      !decide (getDepth l - getDepth r < -1) && !decide (getDepth l - getDepth r > 1)
        && guardsOff l && guardsOff r

/-- BST order (TI1): at every node the left subtree holds only strictly
smaller elements and the right subtree only strictly greater ones. -/
def Ordered [LinearOrder α] : Node α → Prop
  | .null => True
  | .mk x l r _ =>
      (∀ y ∈ keys l, y < x) ∧ (∀ y ∈ keys r, x < y) ∧ Ordered l ∧ Ordered r

/-- Relation `Shrinks t1 t`: when `t` is in BST order, so is `t1`, and `t1` holds
only elements of `t`. -/
def Shrinks [LinearOrder α] (t1 t : Node α) : Prop :=
  Ordered t → Ordered t1 ∧ ∀ y ∈ keys t1, y ∈ keys t

end AVLSet

namespace AVLSet

/-- The invariant linking a set without balancing to the sequence of elements
added so far. -/
structure PlainInv {α : Type} [LinearOrder α] (xs : List α) (s : AVLSet α) : Prop where
  flag : s.balance = false
  ordered : Ordered s.root
  mem : ∀ y, y ∈ keys s.root ↔ y ∈ xs
  count : s.treeSize = (xs.toFinset.card : Int)

end AVLSet

/-! ### Notions used to state the properties of the word checker -/

namespace WordChecker

/-- The string obtained from `w` by swapping the characters at the positions
`i` and `i + 1` (the string itself when there are no two such positions). -/
def swapAdjacent (w : List Char) (i : Nat) : List Char :=
  match w.drop i with
  | a :: b :: rest => w.take i ++ b :: a :: rest
  | _ => w

/-- The vector holds no string twice and only strings of the word set. -/
def Sound (contains : List Char → Bool) (v : List (List Char)) : Prop :=
  v.Nodup ∧ ∀ x ∈ v, contains x = true

/-- The word set of the test `canGenerateSuggestions`: `ABDC` and `ZZZZZ`. -/
def testWords (w : List Char) : Bool :=
  decide (w = "ABDC".toList) || decide (w = "ZZZZZ".toList)

end WordChecker

/-! ### Notions used to state the hash set invariants -/

namespace HashSet

variable {α : Type}

/-- Structural well-formedness of a table: the array has `capacity` buckets,
the capacity is positive, and every chain entry sits in the bucket of its
hash. -/
structure WF (hash : α → Nat) (s : HashSet α) : Prop where
  len : s.arrPtr.length = s.capacity
  pos : 0 < s.capacity
  place : ∀ i x, x ∈ bucket s i → index hash s x = i

/-- Sum of the chain lengths. -/
def total (s : HashSet α) : Nat := (s.arrPtr.map List.length).sum

/-- The invariant linking a table to the sequence of elements added so far. -/
structure Inv [DecidableEq α] (hash : α → Nat) (xs : List α) (s : HashSet α) : Prop where
  wf : WF hash s
  mem : ∀ x, x ∈ bucket s (index hash s x) ↔ x ∈ xs
  sizeTotal : s.currSize = total s
  sizeCard : s.currSize = xs.toFinset.card

end HashSet

/-! ## Properties of the hash set -/

namespace HashSet

variable {α : Type}

theorem chainHas_iff [DecidableEq α] (e : α) (l : List α) : chainHas e l = true ↔ e ∈ l := by
  induction l with
  | nil => simp [chainHas]
  | cons d t ih =>
    by_cases h : d = e
    · simp [chainHas, h]
    · have h2 : ¬ e = d := fun h3 => h h3.symm
      simp [chainHas, h, h2, ih]

theorem contains_iff [DecidableEq α] (hash : α → Nat) (s : HashSet α) (e : α) :
    contains hash s e = true ↔ e ∈ bucket s (index hash s e) := by
  simp [contains, chainHas_iff]

theorem index_lt (hash : α → Nat) (s : HashSet α) (hpos : 0 < s.capacity) (e : α) :
    index hash s e < s.capacity := Nat.mod_lt _ hpos

theorem index_addNode (hash : α → Nat) (s : HashSet α) (e x : α) :
    index hash (addNode hash s e) x = index hash s x := rfl

theorem bucket_addNode (hash : α → Nat) (s : HashSet α) (h : WF hash s) (e : α) (i : Nat) :
    bucket (addNode hash s e) i =
      if i = index hash s e then bucket s i ++ [e] else bucket s i := by
  have hlt : index hash s e < s.arrPtr.length := by
    rw [h.len]; exact index_lt hash s h.pos e
  simp only [bucket, addNode, List.getD_eq_getElem?_getD, List.getElem?_set]
  by_cases hi : i = index hash s e
  · subst hi
    simp [hlt]
  · have hi2 : ¬ index hash s e = i := fun h3 => hi h3.symm
    simp [hi, hi2]

theorem mem_bucket_addNode (hash : α → Nat) (s : HashSet α) (h : WF hash s) (e x : α)
    (i : Nat) :
    x ∈ bucket (addNode hash s e) i ↔
      x ∈ bucket s i ∨ (x = e ∧ i = index hash s e) := by
  rw [bucket_addNode hash s h]
  by_cases hi : i = index hash s e
  · simp [hi]
  · simp [hi]

theorem addNode_WF (hash : α → Nat) (s : HashSet α) (h : WF hash s) (e : α) :
    WF hash (addNode hash s e) := by
  refine ⟨?_, h.pos, ?_⟩
  · show (s.arrPtr.set _ _).length = s.capacity
    rw [List.length_set]; exact h.len
  · intro i x hx
    rw [index_addNode]
    rcases (mem_bucket_addNode hash s h e x i).1 hx with h1 | ⟨h1, h2⟩
    · exact h.place i x h1
    · rw [h1, h2]

theorem sum_length_set (l : List (List α)) (i : Nat) (hi : i < l.length) (e : α) :
    ((l.set i (l.getD i [] ++ [e])).map List.length).sum = (l.map List.length).sum + 1 := by
  induction l generalizing i with
  | nil => simp at hi
  | cons c t ih =>
    cases i with
    | zero => simp; omega
    | succ j =>
      have hj : j < t.length := by simpa using hi
      have := ih j hj
      simp only [List.set_cons_succ, List.map_cons, List.sum_cons, List.getD_cons_succ] at *
      omega

theorem total_addNode (hash : α → Nat) (s : HashSet α) (h : WF hash s) (e : α) :
    total (addNode hash s e) = total s + 1 := by
  have hlt : index hash s e < s.arrPtr.length := by
    rw [h.len]; exact index_lt hash s h.pos e
  exact sum_length_set s.arrPtr _ hlt e

theorem rehashChain_append (hash : α → Nat) (s : HashSet α) (l1 l2 : List α) :
    rehashChain hash s (l1 ++ l2) = rehashChain hash (rehashChain hash s l1) l2 := by
  induction l1 generalizing s with
  | nil => rfl
  | cons d t ih => simp [rehashChain, ih]

theorem rehash_eq (hash : α → Nat) (s : HashSet α) (bs : List (List α)) :
    rehash hash s bs = rehashChain hash s bs.flatten := by
  induction bs generalizing s with
  | nil => rfl
  | cons c t ih => simp [rehash, ih, rehashChain_append]

theorem rehashChain_capacity (hash : α → Nat) (s : HashSet α) (l : List α) :
    (rehashChain hash s l).capacity = s.capacity := by
  induction l generalizing s with
  | nil => rfl
  | cons d t ih => simp [rehashChain, ih, addNode]

theorem rehashChain_index (hash : α → Nat) (s : HashSet α) (l : List α) (x : α) :
    index hash (rehashChain hash s l) x = index hash s x := by
  simp [index, rehashChain_capacity]

theorem rehashChain_WF (hash : α → Nat) (s : HashSet α) (h : WF hash s) (l : List α) :
    WF hash (rehashChain hash s l) := by
  induction l generalizing s with
  | nil => exact h
  | cons d t ih => exact ih _ (addNode_WF hash s h d)

theorem rehashChain_mem (hash : α → Nat) (s : HashSet α) (h : WF hash s) (l : List α)
    (x : α) (i : Nat) :
    x ∈ bucket (rehashChain hash s l) i ↔
      x ∈ bucket s i ∨ (x ∈ l ∧ i = index hash s x) := by
  induction l generalizing s with
  | nil => simp [rehashChain]
  | cons d t ih =>
    simp only [rehashChain]
    rw [ih _ (addNode_WF hash s h d), mem_bucket_addNode hash s h, index_addNode]
    constructor
    · rintro ((h1 | ⟨h1, h2⟩) | ⟨h1, h2⟩)
      · exact Or.inl h1
      · subst h1; exact Or.inr ⟨List.mem_cons_self _ _, h2⟩
      · exact Or.inr ⟨List.mem_cons_of_mem _ h1, h2⟩
    · rintro (h1 | ⟨h1, h2⟩)
      · exact Or.inl (Or.inl h1)
      · rcases List.mem_cons.1 h1 with h3 | h3
        · subst h3; exact Or.inl (Or.inr ⟨rfl, h2⟩)
        · exact Or.inr ⟨h3, h2⟩

theorem rehashChain_total (hash : α → Nat) (s : HashSet α) (h : WF hash s) (l : List α) :
    total (rehashChain hash s l) = total s + l.length := by
  induction l generalizing s with
  | nil => rfl
  | cons d t ih =>
    simp only [rehashChain]
    rw [ih _ (addNode_WF hash s h d), total_addNode hash s h, List.length_cons]
    omega

theorem rehashChain_currSize (hash : α → Nat) (s : HashSet α) (hs : s.currSize < UINT)
    (l : List α) :
    (rehashChain hash s l).currSize = (s.currSize + l.length) % UINT := by
  induction l generalizing s with
  | nil => simp [rehashChain, Nat.mod_eq_of_lt hs]
  | cons d t ih =>
    simp only [rehashChain]
    have h1 : (addNode hash s d).currSize = (s.currSize + 1) % UINT := rfl
    have h2 : (addNode hash s d).currSize < UINT := by
      rw [h1]; exact Nat.mod_lt _ (by decide)
    rw [ih _ h2, h1, List.length_cons, Nat.mod_add_mod]
    congr 1
    omega

/-- The table `arrPtr = new Node*[capacity]; fillEmpty(); currSize = 0`. -/
theorem fresh_bucket (c i : Nat) :
    bucket ({ arrPtr := fillEmpty c, capacity := c, currSize := 0 } : HashSet α) i = [] := by
  simp only [bucket, fillEmpty, List.getD_eq_getElem?_getD, List.getElem?_replicate]
  by_cases h : i < c <;> simp [h]

theorem fresh_WF (hash : α → Nat) (c : Nat) (hc : 0 < c) :
    WF hash ({ arrPtr := fillEmpty c, capacity := c, currSize := 0 } : HashSet α) := by
  refine ⟨by simp [fillEmpty], hc, ?_⟩
  intro i x hx
  rw [fresh_bucket] at hx
  simp at hx

theorem fresh_total (c : Nat) :
    total ({ arrPtr := fillEmpty c, capacity := c, currSize := 0 } : HashSet α) = 0 := by
  simp [total, fillEmpty]

theorem mem_flatten_iff (hash : α → Nat) (s : HashSet α) (h : WF hash s) (x : α) :
    x ∈ s.arrPtr.flatten ↔ x ∈ bucket s (index hash s x) := by
  rw [List.mem_flatten]
  constructor
  · rintro ⟨c, hc, hx⟩
    obtain ⟨i, hi⟩ := List.mem_iff_getElem?.1 hc
    have hb : bucket s i = c := by
      simp [bucket, List.getD_eq_getElem?_getD, hi]
    have := h.place i x (by rw [hb]; exact hx)
    rw [this, hb]; exact hx
  · intro hx
    have hlt : index hash s x < s.arrPtr.length := by
      rw [h.len]; exact index_lt hash s h.pos x
    refine ⟨bucket s (index hash s x), ?_, hx⟩
    have : bucket s (index hash s x) = s.arrPtr[index hash s x] := by
      simp [bucket, List.getD_eq_getElem?_getD, hlt]
    rw [this]
    exact List.getElem_mem _

theorem loadExceeds_iff (s : HashSet α) : loadExceeds s = true ↔ 1 ≤ s.currSize / s.capacity := by
  simp only [loadExceeds, decide_eq_true_eq]
  omega

theorem capacity_le_of_loadExceeds (s : HashSet α) (h : loadExceeds s = true) : s.capacity ≤ s.currSize := by
  rw [loadExceeds_iff] at h
  by_contra hlt
  rw [Nat.div_eq_of_lt (by omega)] at h
  omega

theorem card_snoc_of_mem [DecidableEq α] (xs : List α) (e : α) (h : e ∈ xs) :
    (xs ++ [e]).toFinset.card = xs.toFinset.card := by
  have : (xs ++ [e]).toFinset = xs.toFinset := by
    ext y
    simp only [List.mem_toFinset, List.mem_append, List.mem_singleton]
    constructor
    · rintro (h1 | h1)
      · exact h1
      · rw [h1]; exact h
    · exact Or.inl
  rw [this]

theorem card_snoc_of_not_mem [DecidableEq α] (xs : List α) (e : α) (h : e ∉ xs) :
    (xs ++ [e]).toFinset.card = xs.toFinset.card + 1 := by
  have : (xs ++ [e]).toFinset = insert e xs.toFinset := by
    ext y
    simp only [List.mem_toFinset, List.mem_append, List.mem_singleton, Finset.mem_insert]
    exact Or.comm
  rw [this, Finset.card_insert_of_not_mem (by simpa using h)]

theorem inv_new [DecidableEq α] (hash : α → Nat) : Inv hash [] (new : HashSet α) := by
  refine ⟨fresh_WF hash DEFAULT_CAPACITY (by decide), ?_, ?_, rfl⟩
  · intro x
    have : bucket (new : HashSet α) (index hash new x) = [] := fresh_bucket _ _
    rw [this]
  · exact (fresh_total DEFAULT_CAPACITY).symm

theorem inv_add [DecidableEq α] (hash : α → Nat) (xs : List α) (s : HashSet α)
    (h : Inv hash xs s) (hlen : xs.length < 2 ^ 31) (e : α) :
    Inv hash (xs ++ [e]) (add hash s e) := by
  have hsz : s.currSize < 2 ^ 31 := by
    rw [h.sizeCard]
    exact lt_of_le_of_lt (List.toFinset_card_le xs) hlen
  by_cases hc : contains hash s e = true
  · have he : e ∈ xs := (h.mem e).1 ((contains_iff hash s e).1 hc)
    have hadd : add hash s e = s := by simp [add, hc]
    rw [hadd]
    refine ⟨h.wf, ?_, h.sizeTotal, ?_⟩
    · intro x
      rw [h.mem x, List.mem_append, List.mem_singleton]
      constructor
      · exact Or.inl
      · rintro (h1 | h1)
        · exact h1
        · rw [h1]; exact he
    · rw [card_snoc_of_mem xs e he]; exact h.sizeCard
  · have hc2 : contains hash s e = false := by simpa using hc
    have he : e ∉ xs := fun h1 => hc ((contains_iff hash s e).2 ((h.mem e).2 h1))
    have hcard := card_snoc_of_not_mem xs e he
    have hwf1 := addNode_WF hash s h.wf e
    have htot1 := total_addNode hash s h.wf e
    have hmem1 : ∀ x, x ∈ bucket (addNode hash s e) (index hash s x) ↔ x ∈ xs ++ [e] := by
      intro x
      rw [mem_bucket_addNode hash s h.wf, h.mem x, List.mem_append, List.mem_singleton]
      constructor
      · rintro (h1 | ⟨h1, _⟩)
        · exact Or.inl h1
        · exact Or.inr h1
      · rintro (h1 | h1)
        · exact Or.inl h1
        · subst h1; exact Or.inr ⟨rfl, rfl⟩
    by_cases hl : loadExceeds s = true
    · have hcap := capacity_le_of_loadExceeds s hl
      have hpos := h.wf.pos
      have hc2eq : (s.capacity * 2) % UINT = s.capacity * 2 := by
        apply Nat.mod_eq_of_lt
        have : UINT = 2 ^ 32 := rfl
        omega
      have hadd : add hash s e =
          rehashChain hash
            { arrPtr := fillEmpty (s.capacity * 2), capacity := s.capacity * 2, currSize := 0 }
            (addNode hash s e).arrPtr.flatten := by
        simp only [add, hc2, hl, Bool.not_false, if_true]
        rw [rehash_eq]
        have : (addNode hash s e).capacity = s.capacity := rfl
        rw [this, hc2eq]
      have hwf2 := @fresh_WF α hash (s.capacity * 2) (by omega)
      have hz : (0 : Nat) < UINT := by decide
      have hflat : (addNode hash s e).arrPtr.flatten.length = s.currSize + 1 := by
        rw [List.length_flatten]
        show total (addNode hash s e) = _
        rw [htot1, h.sizeTotal]
      rw [hadd]
      refine ⟨rehashChain_WF hash _ hwf2 _, ?_, ?_, ?_⟩
      · intro x
        rw [rehashChain_mem hash _ hwf2, rehashChain_index, fresh_bucket,
          mem_flatten_iff hash _ hwf1, index_addNode, hmem1 x]
        simp
      · rw [rehashChain_total hash _ hwf2, fresh_total,
          rehashChain_currSize hash _ hz, hflat]
        simp only [Nat.zero_add]
        apply Nat.mod_eq_of_lt
        have : UINT = 2 ^ 32 := rfl
        omega
      · rw [rehashChain_currSize hash _ hz, hflat, hcard, ← h.sizeCard]
        simp only [Nat.zero_add]
        apply Nat.mod_eq_of_lt
        have : UINT = 2 ^ 32 := rfl
        omega
    · have hl2 : loadExceeds s = false := by simpa using hl
      have hadd : add hash s e = addNode hash s e := by
        simp [add, hc2, hl2]
      have hcur : (addNode hash s e).currSize = s.currSize + 1 := by
        show (s.currSize + 1) % UINT = _
        apply Nat.mod_eq_of_lt
        have : UINT = 2 ^ 32 := rfl
        omega
      rw [hadd]
      refine ⟨hwf1, ?_, ?_, ?_⟩
      · intro x
        rw [index_addNode]; exact hmem1 x
      · rw [hcur, htot1, h.sizeTotal]
      · rw [hcur, hcard, h.sizeCard]

theorem addAll_snoc [DecidableEq α] (hash : α → Nat) (xs : List α) (e : α) :
    addAll hash (xs ++ [e]) = add hash (addAll hash xs) e := by
  simp [addAll, List.foldl_append]

theorem inv_addAll [DecidableEq α] (hash : α → Nat) (xs : List α)
    (hlen : xs.length ≤ 2 ^ 31) : Inv hash xs (addAll hash xs) := by
  induction xs using List.reverseRecOn with
  | nil => exact inv_new hash
  | append_singleton ys e ih =>
    rw [addAll_snoc]
    have hl : ys.length < 2 ^ 31 := by
      simp only [List.length_append, List.length_singleton] at hlen
      omega
    exact inv_add hash ys _ (ih (le_of_lt hl)) hl e

/-- The eleventh `add` of a new element is the first one that resizes: the
capacity goes from `10` to `20`. -/
theorem capacity_after_ten_and_eleven :
    (addAll (fun n => 7 * n) (List.range 10)).capacity = 10 ∧
      (addAll (fun n => 7 * n) (List.range 11)).capacity = 20 := by
  decide

/-- C1. Membership of the hash set is exact, across resizes: for every hash
function and every sequence `xs` of `add` calls on a new set (short enough
that the `unsigned int` capacity does not wrap around), `contains x` is true
exactly when `x` occurs in `xs`; and an element contained before an `add`
call, resizing or not, is contained after it. -/
theorem contains_addAll_iff [DecidableEq α] (hash : α → Nat) (xs : List α)
    (hlen : xs.length ≤ 2 ^ 31) (x : α) :
    (contains hash (addAll hash xs) x = true ↔ x ∈ xs) ∧
      (∀ ys e, xs = ys ++ [e] → contains hash (addAll hash ys) x = true →
        contains hash (add hash (addAll hash ys) e) x = true) := by
  have key : ∀ zs : List α, zs.length ≤ 2 ^ 31 →
      (contains hash (addAll hash zs) x = true ↔ x ∈ zs) := by
    intro zs hz
    rw [contains_iff]
    exact (inv_addAll hash zs hz).mem x
  refine ⟨key xs hlen, ?_⟩
  intro ys e hxs hx
  have hys : ys.length ≤ 2 ^ 31 := by
    rw [hxs] at hlen
    simp only [List.length_append, List.length_singleton] at hlen
    omega
  rw [← addAll_snoc, ← hxs, key xs hlen, hxs]
  exact List.mem_append_left _ ((key ys hys).1 hx)

/-- Witness of C1: eleven elements with hashes `0, 7, 14, ...`; the eleventh
`add` resizes the table. -/
theorem contains_addAll_iff_witness :
    (List.range 11).length ≤ 2 ^ 31 ∧
      ((contains (fun n => 7 * n) (addAll (fun n => 7 * n) (List.range 11)) 3 = true ↔
          3 ∈ List.range 11) ∧
        (∀ ys e, List.range 11 = ys ++ [e] →
          contains (fun n => 7 * n) (addAll (fun n => 7 * n) ys) 3 = true →
          contains (fun n => 7 * n) (add (fun n => 7 * n) (addAll (fun n => 7 * n) ys) e) 3
            = true)) :=
  ⟨by decide, contains_addAll_iff (fun n => 7 * n) (List.range 11) (by decide) 3⟩

/-- C3. The size of the hash set is the number of distinct elements added:
after any sequence `xs` of `add` calls on a new set (short enough that the
`unsigned int` counters do not wrap around), `size` is the number of distinct
elements of `xs`; a further `add` of a contained element leaves `size`
unchanged and a further `add` of an element that is not contained increases
`size` by exactly one, whether or not that call resizes the table. -/
theorem size_add [DecidableEq α] (hash : α → Nat) (xs : List α)
    (hlen : xs.length < 2 ^ 31) (e : α) :
    size (addAll hash xs) = xs.toFinset.card ∧
      (contains hash (addAll hash xs) e = true →
        size (add hash (addAll hash xs) e) = size (addAll hash xs)) ∧
      (contains hash (addAll hash xs) e = false →
        size (add hash (addAll hash xs) e) = size (addAll hash xs) + 1) := by
  have h1 := inv_addAll hash xs (le_of_lt hlen)
  have h2 := inv_add hash xs _ h1 hlen e
  have hc : contains hash (addAll hash xs) e = true ↔ e ∈ xs := by
    rw [contains_iff]; exact h1.mem e
  refine ⟨h1.sizeCard, ?_, ?_⟩
  · intro hce
    show (add hash (addAll hash xs) e).currSize = (addAll hash xs).currSize
    rw [h2.sizeCard, h1.sizeCard, card_snoc_of_mem xs e (hc.1 hce)]
  · intro hce
    have he : e ∉ xs := fun h3 => by
      rw [hc.2 h3] at hce
      exact Bool.noConfusion hce
    show (add hash (addAll hash xs) e).currSize = (addAll hash xs).currSize + 1
    rw [h2.sizeCard, h1.sizeCard, card_snoc_of_not_mem xs e he]

/-- Witness of C3: ten distinct elements fill the default table, so the
`add` of the eleventh element `10` is a resizing one. -/
theorem size_add_witness :
    (List.range 10).length < 2 ^ 31 ∧
      (size (addAll (fun n => n) (List.range 10)) = (List.range 10).toFinset.card ∧
        (contains (fun n => n) (addAll (fun n => n) (List.range 10)) 10 = true →
          size (add (fun n => n) (addAll (fun n => n) (List.range 10)) 10) =
            size (addAll (fun n => n) (List.range 10))) ∧
        (contains (fun n => n) (addAll (fun n => n) (List.range 10)) 10 = false →
          size (add (fun n => n) (addAll (fun n => n) (List.range 10)) 10) =
            size (addAll (fun n => n) (List.range 10)) + 1)) :=
  ⟨by decide, size_add (fun n => n) (List.range 10) (by decide) 10⟩

end HashSet

/-! ## Properties of the AVL set -/

namespace AVLSet

/-- C2. Evaluation of `add` on a balancing set after the calls `add 3`,
`add 1`, `add 2`: the call `add 0` runs the "Left Right Case" at the root,
whose two rotations leave the node `3` alone at the root; `contains 0` is
false afterwards, and a second `add 0` inserts again and moves `size` from
`4` to `5`. -/
theorem add_twice_after_rotation :
    addAll true [3, 1, 2] =
        some ({ treeSize := 3, treeHeight := 0, balance := true,
                root := .mk 3 (.mk 1 .null (.mk 2 .null .null 1) 1) .null 2 } : AVLSet Nat) ∧
      addAll true [3, 1, 2, 0] =
        some ({ treeSize := 4, treeHeight := 0, balance := true,
                root := .mk 3 .null .null 1 } : AVLSet Nat) ∧
      (addAll true [3, 1, 2, 0]).map (fun s : AVLSet Nat => contains s 0) = some false ∧
      (addAll true [3, 1, 2, 0]).map (fun s : AVLSet Nat => size s) = some 4 ∧
      (addAll true [3, 1, 2, 0, 0]).map (fun s : AVLSet Nat => size s) = some 5 := by
  decide

theorem shrinks_refl [LinearOrder α] (t : Node α) : Shrinks t t :=
  fun h => ⟨h, fun _ hy => hy⟩

theorem shrinks_trans [LinearOrder α] {t2 t1 t : Node α} (h21 : Shrinks t2 t1)
    (h10 : Shrinks t1 t) : Shrinks t2 t := by
  intro h
  obtain ⟨o1, k1⟩ := h10 h
  obtain ⟨o2, k2⟩ := h21 o1
  exact ⟨o2, fun y hy => k1 y (k2 y hy)⟩

theorem shrinks_left [LinearOrder α] {l1 l : Node α} (x : α) (r : Node α) (d1 d : Int)
    (h : Shrinks l1 l) : Shrinks (.mk x l1 r d1) (.mk x l r d) := by
  rintro ⟨hl, hr, ol, or_⟩
  obtain ⟨o1, k1⟩ := h ol
  refine ⟨⟨fun y hy => hl y (k1 y hy), hr, o1, or_⟩, ?_⟩
  intro y hy
  simp only [keys, List.mem_append, List.mem_cons] at hy ⊢
  rcases hy with hy | hy
  · exact Or.inl (k1 y hy)
  · exact Or.inr hy

theorem shrinks_right [LinearOrder α] {r1 r : Node α} (x : α) (l : Node α) (d1 d : Int)
    (h : Shrinks r1 r) : Shrinks (.mk x l r1 d1) (.mk x l r d) := by
  rintro ⟨hl, hr, ol, or_⟩
  obtain ⟨o1, k1⟩ := h or_
  refine ⟨⟨hl, fun y hy => hr y (k1 y hy), ol, o1⟩, ?_⟩
  intro y hy
  simp only [keys, List.mem_append, List.mem_cons] at hy ⊢
  rcases hy with hy | hy | hy
  · exact Or.inl hy
  · exact Or.inr (Or.inl hy)
  · exact Or.inr (Or.inr (k1 y hy))

theorem leftRotate_shrinks [LinearOrder α] (t : Node α) (p : Node α × Node α)
    (h : leftRotate t = some p) : Shrinks p.1 t := by
  match t, h with
  | .mk x l (.mk y b r dy) d, h =>
    simp only [leftRotate, Option.some.injEq] at h
    subst h
    refine shrinks_right x l _ d ?_
    rintro ⟨_, _, ob, _⟩
    exact ⟨ob, fun z hz => by simp [keys, hz]⟩
  | .null, h => simp [leftRotate] at h
  | .mk _ _ .null _, h => simp [leftRotate] at h

theorem rightRotate_shrinks [LinearOrder α] (t : Node α) (p : Node α × Node α)
    (h : rightRotate t = some p) : Shrinks p.1 t := by
  match t, h with
  | .mk x (.mk y l b dy) r d, h =>
    simp only [rightRotate, Option.some.injEq] at h
    subst h
    refine shrinks_left x r _ d ?_
    rintro ⟨_, _, _, ob⟩
    exact ⟨ob, fun z hz => by simp [keys, hz]⟩
  | .null, h => simp [rightRotate] at h
  | .mk _ .null _ _, h => simp [rightRotate] at h

theorem option_map_some {β γ : Type} {f : β → γ} {o : Option β} {c : γ}
    (h : o.map f = some c) : ∃ b, o = some b ∧ f b = c := by
  cases o with
  | none => simp at h
  | some b => exact ⟨b, rfl, by simpa using h⟩

theorem caseRightRight_shrinks [LinearOrder α] (t t1 : Node α)
    (h : caseRightRight t = some t1) : Shrinks t1 t := by
  cases t with
  | null => simp [caseRightRight] at h
  | mk x l r d =>
    simp only [caseRightRight] at h
    split_ifs at h with h1
    · cases r with
      | null => simp at h
      | mk y rl rr dy =>
        simp only at h
        split_ifs at h with h2
        · obtain ⟨p, hp, rfl⟩ := option_map_some h
          exact leftRotate_shrinks _ p hp
        · cases h; exact shrinks_refl _
    · cases h; exact shrinks_refl _

theorem caseRightLeft_shrinks [LinearOrder α] (t t1 : Node α)
    (h : caseRightLeft t = some t1) : Shrinks t1 t := by
  cases t with
  | null => simp [caseRightLeft] at h
  | mk x l r d =>
    simp only [caseRightLeft] at h
    split_ifs at h with h1
    · cases r with
      | null => simp at h
      | mk y rl rr dy =>
        simp only at h
        split_ifs at h with h2
        · obtain ⟨q, hq, h3⟩ := Option.bind_eq_some.1 h
          obtain ⟨p, hp, rfl⟩ := option_map_some h3
          exact shrinks_trans (leftRotate_shrinks _ p hp)
            (shrinks_right x l d d (rightRotate_shrinks _ q hq))
        · cases h; exact shrinks_refl _
    · cases h; exact shrinks_refl _

theorem caseLeftLeft_shrinks [LinearOrder α] (t t1 : Node α)
    (h : caseLeftLeft t = some t1) : Shrinks t1 t := by
  cases t with
  | null => simp [caseLeftLeft] at h
  | mk x l r d =>
    simp only [caseLeftLeft] at h
    split_ifs at h with h1
    · cases l with
      | null => simp at h
      | mk y ll lr dy =>
        simp only at h
        split_ifs at h with h2
        · obtain ⟨p, hp, rfl⟩ := option_map_some h
          exact rightRotate_shrinks _ p hp
        · cases h; exact shrinks_refl _
    · cases h; exact shrinks_refl _

theorem caseLeftRight_shrinks [LinearOrder α] (t t1 : Node α)
    (h : caseLeftRight t = some t1) : Shrinks t1 t := by
  cases t with
  | null => simp [caseLeftRight] at h
  | mk x l r d =>
    simp only [caseLeftRight] at h
    split_ifs at h with h1
    · cases l with
      | null => simp at h
      | mk y ll lr dy =>
        simp only at h
        split_ifs at h with h2
        · obtain ⟨q, hq, h3⟩ := Option.bind_eq_some.1 h
          obtain ⟨p, hp, rfl⟩ := option_map_some h3
          exact shrinks_trans (rightRotate_shrinks _ p hp)
            (shrinks_left x r d d (leftRotate_shrinks _ q hq))
        · cases h; exact shrinks_refl _
    · cases h; exact shrinks_refl _

theorem rebalance_shrinks [LinearOrder α] (t t1 : Node α)
    (h : rebalance t = some t1) : Shrinks t1 t := by
  simp only [rebalance] at h
  obtain ⟨t4, h4, hd⟩ := Option.bind_eq_some.1 h
  obtain ⟨t3, h3, hc⟩ := Option.bind_eq_some.1 h4
  obtain ⟨t2, h2, hb⟩ := Option.bind_eq_some.1 h3
  exact shrinks_trans (caseLeftRight_shrinks _ _ hd)
    (shrinks_trans (caseLeftLeft_shrinks _ _ hc)
      (shrinks_trans (caseRightLeft_shrinks _ _ hb) (caseRightRight_shrinks _ _ h2)))

theorem ordered_insert_left [LinearOrder α] {x e : α} {l l1 r : Node α} {d : Int}
    (h : Ordered (.mk x l r d)) (he : e < x) (o1 : Ordered l1)
    (k1 : ∀ y ∈ keys l1, y = e ∨ y ∈ keys l) (d1 : Int) :
    Ordered (.mk x l1 r d1) ∧
      ∀ y ∈ keys (.mk x l1 r d1), y = e ∨ y ∈ keys (.mk x l r d) := by
  obtain ⟨hl, hr, _, or_⟩ := h
  refine ⟨⟨?_, hr, o1, or_⟩, ?_⟩
  · intro y hy
    rcases k1 y hy with h1 | h1
    · rw [h1]; exact he
    · exact hl y h1
  · intro y hy
    simp only [keys, List.mem_append, List.mem_cons] at hy ⊢
    rcases hy with hy | hy
    · rcases k1 y hy with h1 | h1
      · exact Or.inl h1
      · exact Or.inr (Or.inl h1)
    · exact Or.inr (Or.inr hy)

theorem ordered_insert_right [LinearOrder α] {x e : α} {l r r1 : Node α} {d : Int}
    (h : Ordered (.mk x l r d)) (he : x < e) (o1 : Ordered r1)
    (k1 : ∀ y ∈ keys r1, y = e ∨ y ∈ keys r) (d1 : Int) :
    Ordered (.mk x l r1 d1) ∧
      ∀ y ∈ keys (.mk x l r1 d1), y = e ∨ y ∈ keys (.mk x l r d) := by
  obtain ⟨hl, hr, ol, _⟩ := h
  refine ⟨⟨hl, ?_, ol, o1⟩, ?_⟩
  · intro y hy
    rcases k1 y hy with h1 | h1
    · rw [h1]; exact he
    · exact hr y h1
  · intro y hy
    simp only [keys, List.mem_append, List.mem_cons] at hy ⊢
    rcases hy with hy | hy | hy
    · exact Or.inr (Or.inl hy)
    · exact Or.inr (Or.inr (Or.inl hy))
    · rcases k1 y hy with h1 | h1
      · exact Or.inl h1
      · exact Or.inr (Or.inr (Or.inr h1))

theorem addElement_ordered [LinearOrder α] (balance : Bool) (e : α) (t t1 : Node α)
    (h : addElement balance e t = some t1) (o : Ordered t) :
    Ordered t1 ∧ ∀ y ∈ keys t1, y = e ∨ y ∈ keys t := by
  induction t generalizing t1 with
  | null =>
    simp only [addElement, Option.some.injEq] at h
    subst h
    simp [Ordered, keys]
  | mk x l r d ihl ihr =>
    simp only [addElement] at h
    split_ifs at h with h1 h2 h3 h4
    · obtain ⟨l1, hl1, hreb⟩ := Option.bind_eq_some.1 h
      obtain ⟨o1, k1⟩ := ihl l1 hl1 o.2.2.1
      obtain ⟨o2, k2⟩ := ordered_insert_left o h1 o1 k1 (getMax (getDepth r) (getDepth l1) + 1)
      obtain ⟨o3, k3⟩ := rebalance_shrinks _ _ hreb o2
      exact ⟨o3, fun y hy => k2 y (k3 y hy)⟩
    · obtain ⟨l1, hl1, rfl⟩ := option_map_some h
      exact ordered_insert_left o h1 (ihl l1 hl1 o.2.2.1).1 (ihl l1 hl1 o.2.2.1).2 d
    · obtain ⟨r1, hr1, hreb⟩ := Option.bind_eq_some.1 h
      obtain ⟨o1, k1⟩ := ihr r1 hr1 o.2.2.2
      obtain ⟨o2, k2⟩ := ordered_insert_right o h3 o1 k1 d
      obtain ⟨o3, k3⟩ := rebalance_shrinks _ _ hreb o2
      exact ⟨o3, fun y hy => k2 y (k3 y hy)⟩
    · obtain ⟨r1, hr1, rfl⟩ := option_map_some h
      exact ordered_insert_right o h3 (ihr r1 hr1 o.2.2.2).1 (ihr r1 hr1 o.2.2.2).2 d
    · cases h
      exact ⟨o, fun y hy => Or.inr hy⟩

theorem add_ordered [LinearOrder α] (s s1 : AVLSet α) (e : α) (h : add s e = some s1)
    (o : Ordered s.root) : Ordered s1.root := by
  simp only [add] at h
  split_ifs at h with h1
  · obtain ⟨t1, ht1, rfl⟩ := option_map_some h
    exact (addElement_ordered _ e _ t1 ht1 o).1
  · cases h; exact o

theorem addMany_ordered [LinearOrder α] (xs : List α) (s s1 : AVLSet α)
    (h : addMany s xs = some s1) (o : Ordered s.root) : Ordered s1.root := by
  induction xs generalizing s with
  | nil =>
    simp only [addMany, Option.some.injEq] at h
    subst h; exact o
  | cons x t ih =>
    simp only [addMany] at h
    obtain ⟨s2, h2, h3⟩ := Option.bind_eq_some.1 h
    exact ih s2 h3 (add_ordered s s2 x h2 o)

theorem keys_pairwise_of_ordered [LinearOrder α] (t : Node α) (o : Ordered t) :
    (keys t).Pairwise (fun a b => a < b) := by
  induction t with
  | null => simp [keys]
  | mk x l r d ihl ihr =>
    obtain ⟨hl, hr, ol, or_⟩ := o
    simp only [keys, List.pairwise_append, List.pairwise_cons, List.mem_cons]
    refine ⟨ihl ol, ⟨hr, ihr or_⟩, ?_⟩
    rintro a ha b (hb | hb)
    · rw [hb]; exact hl a ha
    · exact lt_trans (hl a ha) (hr b hb)

/-- C9. BST order is an invariant of `add`: for either value of the
balancing flag and every sequence of `add` calls on a new set that completes,
every node of the resulting tree has only strictly smaller elements in its
left subtree and only strictly greater elements in its right subtree, and the
in-order listing of the tree is strictly increasing. -/
theorem addAll_ordered [LinearOrder α] (shouldBalance : Bool) (xs : List α) (s : AVLSet α)
    (h : addAll shouldBalance xs = some s) :
    Ordered s.root ∧ (keys s.root).Pairwise (fun a b => a < b) := by
  have o : Ordered s.root := addMany_ordered xs (new shouldBalance) s h trivial
  exact ⟨o, keys_pairwise_of_ordered _ o⟩

/-- Witness of C9: the calls `add 5`, `add 1`, `add 4`, `add 3`, `add 2` on a
balancing set complete (the fourth one runs the two rotations of the "Right
Left Case" at the node `1`). -/
theorem addAll_ordered_witness :
    addAll true [5, 1, 4, 3, 2] =
        some ({ treeSize := 5, treeHeight := 0, balance := true,
                root := .mk 5 (.mk 1 .null (.mk 2 .null .null 1) 1) .null 2 } : AVLSet Nat) ∧
      (Ordered (Node.mk 5 (.mk 1 .null (.mk 2 .null .null 1) 1) .null 2) ∧
        (keys (Node.mk 5 (.mk 1 .null (.mk 2 .null .null 1) 1) .null 2)).Pairwise
          (fun a b => a < b)) :=
  ⟨by decide,
    addAll_ordered true [5, 1, 4, 3, 2]
      { treeSize := 5, treeHeight := 0, balance := true,
        root := .mk 5 (.mk 1 .null (.mk 2 .null .null 1) 1) .null 2 }
      (by decide)⟩

/-- C4. Evaluation of the balancing set on the calls `add 1`, `add 2`,
`add 3`: no rotation happens, the tree keeps all three elements as a
right-only chain of actual height `2`, and the balance condition fails (at
the root the actual heights of the subtrees are `-1` and `1`). -/
theorem ascending_three_not_balanced :
    (addAll true [1, 2, 3]).map (fun s : AVLSet Nat => keys s.root) = some [1, 2, 3] ∧
      (addAll true [1, 2, 3]).map (fun s : AVLSet Nat => actualHeight s.root) = some 2 ∧
      (addAll true [1, 2, 3]).map (fun s : AVLSet Nat => isBalanced s.root) = some false ∧
      actualHeight (Node.null : Node Nat) -
        actualHeight (Node.mk 2 .null (.mk 3 .null .null 1) 1 : Node Nat) = -2 := by
  decide

/-- C5. Evaluation of the two three-element scenarios on a balancing set:
after `add 1`, `add 2`, `add 3` the root holds `1`, has no left child and
carries the chain `2`, `3` on its right, with `height() = 1`; the calls
`add 3`, `add 2`, `add 1` do not complete (the third one dereferences a
null pointer). -/
theorem three_element_scenarios :
    addAll true [1, 2, 3] =
        some ({ treeSize := 3, treeHeight := 0, balance := true,
                root := .mk 1 .null (.mk 2 .null (.mk 3 .null .null 1) 1) 1 } : AVLSet Nat) ∧
      (addAll true [1, 2, 3]).map (fun s : AVLSet Nat => height s) = some 1 ∧
      (addAll true [3, 2, 1] : Option (AVLSet Nat)) = none := by
  decide

/-- C6. Evaluation of `add 1` on the balancing set reached by `add 3`,
`add 2`: the call does not complete.  At the root the "Left Right Case"
applies `leftRotate` to the left child `2`, which has the left child `1` and
no right child. -/
theorem descending_add_dereferences_null :
    addAll true [3, 2] =
        some ({ treeSize := 2, treeHeight := 0, balance := true,
                root := .mk 3 (.mk 2 .null .null 1) .null 2 } : AVLSet Nat) ∧
      add ({ treeSize := 2, treeHeight := 0, balance := true,
             root := .mk 3 (.mk 2 .null .null 1) .null 2 } : AVLSet Nat) 1 = none ∧
      leftRotate (Node.mk 2 (.mk 1 .null .null 1) .null 2 : Node Nat) = none ∧
      caseLeftRight (Node.mk 3 (.mk 2 (.mk 1 .null .null 1) .null 2) .null 3 : Node Nat)
        = none := by
  decide

/-- C7. Evaluation of `height`: on a new set, with either balancing flag, it
is `-1`; after one `add` on a new set it is `1`, the `depth` given to the
new leaf. -/
theorem height_new_and_single [LinearOrder α] (shouldBalance : Bool) (x : α) :
    height (new shouldBalance : AVLSet α) = -1 ∧
      (add (new shouldBalance) x).map height = some 1 := by
  constructor
  · rfl
  · simp [add, new, contains, containsFrom, addElement, height]

/-- C8. Evaluation of the stored depths after the calls `add 1`, `add 2`,
`add 3`, for either balancing flag: the stored depth of some node is not one
more than the larger stored depth of its children, and `height()` is `1`
while the actual height of the tree is `2`. -/
theorem depths_not_recomputed :
    ∀ shouldBalance : Bool,
      (addAll shouldBalance [1, 2, 3]).map (fun s : AVLSet Nat => depthsCorrect s.root)
          = some false ∧
        (addAll shouldBalance [1, 2, 3]).map (fun s : AVLSet Nat => height s) = some 1 ∧
        (addAll shouldBalance [1, 2, 3]).map (fun s : AVLSet Nat => actualHeight s.root)
          = some 2 := by
  decide

/-- C10. Evaluation of the traversals: on every set each of `preorder`,
`inorder` and `postorder` calls `visit` zero times; on the set holding the one
element `5`, `size()` is `1` and each traversal makes `0` calls. -/
theorem traversals_visit_nothing :
    (∀ s : AVLSet Nat, preorder s = [] ∧ inorder s = [] ∧ postorder s = []) ∧
      (addAll true [5]).map
          (fun s : AVLSet Nat =>
            (size s, (preorder s).length, (inorder s).length, (postorder s).length))
        = some (1, 0, 0, 0) := by
  refine ⟨fun _ => ⟨rfl, rfl, rfl⟩, ?_⟩
  decide

end AVLSet

/-! ## Further properties of the hash set -/

namespace HashSet

variable {α : Type}

theorem chainCount_eq (l : List α) : chainCount l = l.length % UINT := by
  induction l with
  | nil => rfl
  | cons d t ih => simp only [chainCount, ih, List.length_cons, Nat.mod_add_mod]

theorem length_getD_le_sum (l : List (List α)) (i : Nat) :
    (l.getD i []).length ≤ (l.map List.length).sum := by
  induction l generalizing i with
  | nil => simp
  | cons c t ih =>
    cases i with
    | zero => simp
    | succ j =>
      have := ih j
      simp only [List.getD_cons_succ, List.map_cons, List.sum_cons]
      omega

theorem sum_range_getD (l : List (List α)) (f : List α → Nat) :
    ((List.range l.length).map (fun i => f (l.getD i []))).sum = (l.map f).sum := by
  induction l with
  | nil => simp
  | cons c t ih =>
    rw [List.length_cons, List.range_succ_eq_map, List.map_cons, List.map_map]
    simp only [List.sum_cons, List.map_cons, List.getD_cons_zero]
    congr 1

/-- C11. Hash distribution accounting: after any sequence `xs` of `add` calls
on a new set (short enough that the `unsigned int` counters do not wrap
around), the sum of `elementsAtIndex i` over all `i` in `[0, capacity)` is
`size`. -/
theorem sum_elementsAtIndex [DecidableEq α] (hash : α → Nat) (xs : List α)
    (hlen : xs.length ≤ 2 ^ 31) :
    ((List.range (addAll hash xs).capacity).map (elementsAtIndex (addAll hash xs))).sum
      = size (addAll hash xs) := by
  have h := inv_addAll hash xs hlen
  have hsz : (addAll hash xs).currSize ≤ 2 ^ 31 := by
    rw [h.sizeCard]
    exact le_trans (List.toFinset_card_le xs) hlen
  have hpt : ∀ i ∈ List.range (addAll hash xs).capacity,
      elementsAtIndex (addAll hash xs) i = ((addAll hash xs).arrPtr.getD i []).length := by
    intro i hi
    have hi2 : i < (addAll hash xs).capacity := List.mem_range.1 hi
    have hle := length_getD_le_sum (addAll hash xs).arrPtr i
    have htot : ((addAll hash xs).arrPtr.map List.length).sum = (addAll hash xs).currSize :=
      h.sizeTotal.symm
    simp only [elementsAtIndex, ge_iff_le, Nat.not_le.2 hi2, if_false, chainCount_eq, bucket]
    apply Nat.mod_eq_of_lt
    have : UINT = 2 ^ 32 := rfl
    omega
  rw [List.map_congr_left hpt, ← h.wf.len, sum_range_getD (addAll hash xs).arrPtr List.length]
  exact h.sizeTotal.symm

/-- Witness of C11: eleven elements with hashes `0, 7, 14, ...`, after the
resize. -/
theorem sum_elementsAtIndex_witness :
    (List.range 11).length ≤ 2 ^ 31 ∧
      ((List.range (addAll (fun n => 7 * n) (List.range 11)).capacity).map
          (elementsAtIndex (addAll (fun n => 7 * n) (List.range 11)))).sum
        = size (addAll (fun n => 7 * n) (List.range 11)) :=
  ⟨by decide, sum_elementsAtIndex (fun n => 7 * n) (List.range 11) (by decide)⟩

/-- C12. Evaluation of the first resize: ten distinct elements leave the
capacity at the default `10`; the `add` of the eleventh changes it to `20`,
that is `10 * 2`, not to `10 * 2 + 1 = 21`. -/
theorem first_resize_capacity :
    (addAll (fun n => n) (List.range 10)).capacity = 10 ∧
      (add (fun n => n) (addAll (fun n => n) (List.range 10)) 10).capacity = 20 ∧
      (add (fun n => n) (addAll (fun n => n) (List.range 10)) 10).capacity
        ≠ (addAll (fun n => n) (List.range 10)).capacity * 2 + 1 := by
  decide

/-- C13. Evaluation of the load factor with the default capacity: the ninth
and the tenth distinct `add` leave the capacity at `10`, with `size` equal to
`9` and `10`, so that `size / capacity` is `0.9` and `1.0` (in integers:
`10 * size > 8 * capacity`); the capacity first changes on the eleventh
distinct `add`. -/
theorem load_after_nine_and_ten :
    (addAll (fun n => n) (List.range 8)).capacity = 10 ∧
      (addAll (fun n => n) (List.range 9)).capacity = 10 ∧
      size (addAll (fun n => n) (List.range 9)) = 9 ∧
      ¬ (10 * size (addAll (fun n => n) (List.range 9))
          ≤ 8 * (addAll (fun n => n) (List.range 9)).capacity) ∧
      (addAll (fun n => n) (List.range 10)).capacity = 10 ∧
      size (addAll (fun n => n) (List.range 10)) = 10 ∧
      loadExceeds (addAll (fun n => n) (List.range 8)) = false ∧
      loadExceeds (addAll (fun n => n) (List.range 9)) = false ∧
      loadExceeds (addAll (fun n => n) (List.range 10)) = true ∧
      (addAll (fun n => n) (List.range 11)).capacity ≠ 10 := by
  decide

theorem isElementAtIndex_iff_mem [DecidableEq α] (s : HashSet α) (e : α) (i : Nat) :
    isElementAtIndex s e i = true ↔ i < s.capacity ∧ e ∈ bucket s i := by
  unfold isElementAtIndex
  by_cases hi : i ≥ s.capacity
  · simp only [hi, if_true]
    constructor
    · intro h; exact Bool.noConfusion h
    · rintro ⟨h1, _⟩; omega
  · simp only [hi, if_false, chainHas_iff]
    constructor
    · intro h; exact ⟨by omega, h⟩
    · exact fun h => h.2

/-- C14. Bucket placement (HI1): after any sequence `xs` of `add` calls on a
new set (short enough that the `unsigned int` capacity does not wrap around,
resizes included), `isElementAtIndex e i` is true exactly when `contains e`
is true and `i` is the bucket index `hash(e) % capacity` of `e`. -/
theorem isElementAtIndex_iff [DecidableEq α] (hash : α → Nat) (xs : List α)
    (hlen : xs.length ≤ 2 ^ 31) (e : α) (i : Nat) :
    isElementAtIndex (addAll hash xs) e i = true ↔
      (contains hash (addAll hash xs) e = true ∧ i = index hash (addAll hash xs) e) := by
  have h := inv_addAll hash xs hlen
  rw [isElementAtIndex_iff_mem, contains_iff]
  constructor
  · rintro ⟨_, hmem⟩
    have hidx := h.wf.place i e hmem
    exact ⟨by rw [hidx]; exact hmem, hidx.symm⟩
  · rintro ⟨hmem, hidx⟩
    rw [hidx]
    exact ⟨index_lt hash _ h.wf.pos e, hmem⟩

/-- Witness of C14: eleven elements with hashes `0, 7, 14, ...`, after the
resize; the element `3` and the index `1 = 21 % 20`. -/
theorem isElementAtIndex_iff_witness :
    (List.range 11).length ≤ 2 ^ 31 ∧
      (isElementAtIndex (addAll (fun n => 7 * n) (List.range 11)) 3 1 = true ↔
        (contains (fun n => 7 * n) (addAll (fun n => 7 * n) (List.range 11)) 3 = true ∧
          1 = index (fun n => 7 * n) (addAll (fun n => 7 * n) (List.range 11)) 3)) :=
  ⟨by decide, isElementAtIndex_iff (fun n => 7 * n) (List.range 11) (by decide) 3 1⟩

/-- C15. An out-of-range bucket index is benign: in every state of the hash
set, for every element and every index `i ≥ capacity`, `elementsAtIndex i`
is `0` and `isElementAtIndex e i` is `false`. -/
theorem out_of_range_index [DecidableEq α] (s : HashSet α) (e : α) (i : Nat)
    (hi : i ≥ s.capacity) :
    elementsAtIndex s i = 0 ∧ isElementAtIndex s e i = false := by
  simp [elementsAtIndex, isElementAtIndex, hi]

/-- Witness of C15: the index `10` on the set holding `1`, `2`, `3` with the
default capacity `10`. -/
theorem out_of_range_index_witness :
    10 ≥ (addAll (fun n => n) [1, 2, 3]).capacity ∧
      (elementsAtIndex (addAll (fun n => n) [1, 2, 3]) 10 = 0 ∧
        isElementAtIndex (addAll (fun n => n) [1, 2, 3]) 3 10 = false) :=
  ⟨by decide, out_of_range_index (addAll (fun n => n) [1, 2, 3]) 3 10 (by decide)⟩

/-- C16. Evaluation of the copy constructor on the set holding the one
element `7`: the copy contains `7` and does not contain `8`, like the
original, but its `size` is `2` while the size of the original is `1`. -/
theorem copy_size_doubled :
    size (addAll (fun n => n) [7]) = 1 ∧
      size (copy (fun n => n) (addAll (fun n => n) [7])) = 2 ∧
      contains (fun n => n) (copy (fun n => n) (addAll (fun n => n) [7])) 7 = true ∧
      contains (fun n => n) (copy (fun n => n) (addAll (fun n => n) [7])) 8 = false := by
  decide

end HashSet

/-! ## Two sets over one store -/

namespace AVLStore

/-- On the calls `add 3`, `add 1`, `add 2`, `add 0` of a balancing set the
tree reached from `root` in the store is the tree computed by
`AVLSet.addAll`. -/
theorem store_agrees_with_tree_example :
    (addMany 8 [] (new true) [3, 1, 2, 0]).bind (fun q => toTree q.1 8 q.2.root) =
      (AVLSet.addAll true [3, 1, 2, 0]).map (fun s : AVLSet Nat => s.root) := by
  decide

/-- C17. Evaluation of copy construction followed by `add` on the copy.  The
set `s` holds `5`; its copy `c` has the same `root` pointer.  Before
`c.add(3)`, `s.contains(3)` is false and `s.size()` is `1`; `c.add(3)` creates
the node `3` and stores its address in the `left` field of the node `5`,
which `s.root` points to as well; afterwards `s.contains(3)` is true, while
`s.size()` is still `1`. -/
theorem copy_shares_nodes :
    add 4 ([] : List (Cell Nat)) (new true) 5 =
        some ([⟨5, none, none, 1⟩],
          { treeSize := 1, treeHeight := 0, balance := true, root := some 0 }) ∧
      copy { treeSize := 1, treeHeight := 0, balance := true, root := some 0 } =
        { treeSize := 1, treeHeight := 0, balance := true, root := some 0 } ∧
      contains 4 ([⟨5, none, none, 1⟩] : List (Cell Nat))
        { treeSize := 1, treeHeight := 0, balance := true, root := some 0 } 3 = some false ∧
      add 4 ([⟨5, none, none, 1⟩] : List (Cell Nat))
          (copy { treeSize := 1, treeHeight := 0, balance := true, root := some 0 }) 3 =
        some ([⟨5, some 1, none, 2⟩, ⟨3, none, none, 1⟩],
          { treeSize := 2, treeHeight := 0, balance := true, root := some 0 }) ∧
      contains 4 ([⟨5, some 1, none, 2⟩, ⟨3, none, none, 1⟩] : List (Cell Nat))
        { treeSize := 1, treeHeight := 0, balance := true, root := some 0 } 3 = some true ∧
      size { treeSize := 1, treeHeight := 0, balance := true, root := some 0 } = 1 := by
  decide

end AVLStore

/-! ## The set without balancing -/

namespace AVLSet

variable {α : Type}

theorem containsFrom_iff_mem_keys [LinearOrder α] (e : α) (t : Node α) (o : Ordered t) :
    containsFrom e t = true ↔ e ∈ keys t := by
  induction t with
  | null => simp [containsFrom, keys]
  | mk x l r d ihl ihr =>
    obtain ⟨hl, hr, ol, or_⟩ := o
    simp only [containsFrom, keys, List.mem_append, List.mem_cons]
    by_cases h1 : x = e
    · simp [h1]
    · have h1b : ¬ e = x := fun h => h1 h.symm
      by_cases h2 : e > x
      · have h3 : e ∉ keys l := fun hm => absurd (hl e hm) (not_lt.2 (le_of_lt h2))
        simp only [h1, h2, if_true, if_false, ihr or_, h1b, h3, false_or]
      · have h4 : e < x := lt_of_le_of_ne (not_lt.1 h2) h1b
        have h3 : e ∉ keys r := fun hm => absurd (hr e hm) (not_lt.2 (le_of_lt h4))
        simp only [h1, h2, h4, if_true, if_false, ihl ol, h1b, h3, false_or, or_false]

theorem addElement_unbalanced [LinearOrder α] (e : α) (t : Node α) :
    ∃ t1, addElement false e t = some t1 ∧ ∀ y, y ∈ keys t1 ↔ y = e ∨ y ∈ keys t := by
  induction t with
  | null => exact ⟨_, rfl, fun y => by simp [keys]⟩
  | mk x l r d ihl ihr =>
    obtain ⟨l1, hl1, kl⟩ := ihl
    obtain ⟨r1, hr1, kr⟩ := ihr
    by_cases h1 : e < x
    · refine ⟨.mk x l1 r d, by simp [addElement, h1, hl1], fun y => ?_⟩
      simp only [keys, List.mem_append, List.mem_cons, kl y]
      tauto
    · by_cases h2 : e > x
      · refine ⟨.mk x l r1 d, by simp [addElement, h1, h2, hr1], fun y => ?_⟩
        simp only [keys, List.mem_append, List.mem_cons, kr y]
        tauto
      · have h3 : e = x := le_antisymm (not_lt.1 h2) (not_lt.1 h1)
        refine ⟨.mk x l r d, by simp [addElement, h1, h2], fun y => ?_⟩
        simp only [keys, List.mem_append, List.mem_cons, h3]
        tauto

theorem plainInv_new [LinearOrder α] : PlainInv [] (new false : AVLSet α) :=
  ⟨rfl, trivial, fun y => by simp [new, keys], by simp [new]⟩

theorem plainInv_add [LinearOrder α] (xs : List α) (s : AVLSet α) (h : PlainInv xs s)
    (e : α) : ∃ s1, add s e = some s1 ∧ PlainInv (xs ++ [e]) s1 := by
  have hc : contains s e = true ↔ e ∈ xs := by
    rw [← h.mem e]; exact containsFrom_iff_mem_keys e s.root h.ordered
  by_cases hin : e ∈ xs
  · refine ⟨s, by simp [add, hc.2 hin], h.flag, h.ordered, fun y => ?_, ?_⟩
    · rw [h.mem y, List.mem_append, List.mem_singleton]
      constructor
      · exact Or.inl
      · rintro (h1 | h1)
        · exact h1
        · rw [h1]; exact hin
    · rw [HashSet.card_snoc_of_mem xs e hin]; exact h.count
  · have hcf : contains s e = false := by
      cases hb : contains s e with
      | false => rfl
      | true => exact absurd (hc.1 hb) hin
    obtain ⟨t1, ht1, kt⟩ := addElement_unbalanced e s.root
    refine ⟨{ s with root := t1, treeSize := s.treeSize + 1 }, ?_, h.flag, ?_, fun y => ?_, ?_⟩
    · simp [add, hcf, h.flag, ht1]
    · exact (addElement_ordered false e s.root t1 ht1 h.ordered).1
    · show y ∈ keys t1 ↔ _
      rw [kt y, h.mem y, List.mem_append, List.mem_singleton]
      exact Or.comm
    · show s.treeSize + 1 = _
      rw [HashSet.card_snoc_of_not_mem xs e hin, h.count]
      push_cast
      rfl

theorem plainInv_addMany [LinearOrder α] (ys xs : List α) (s : AVLSet α)
    (h : PlainInv xs s) : ∃ s1, addMany s ys = some s1 ∧ PlainInv (xs ++ ys) s1 := by
  induction ys generalizing xs s with
  | nil => exact ⟨s, rfl, by simpa using h⟩
  | cons y t ih =>
    obtain ⟨s1, h1, i1⟩ := plainInv_add xs s h y
    obtain ⟨s2, h2, i2⟩ := ih (xs ++ [y]) s1 i1
    refine ⟨s2, by simp [addMany, h1, h2], ?_⟩
    simpa using i2

/-- C18. With balancing disabled the set is a correct plain BST set: every
sequence `xs` of `add` calls on a new set completes (for fewer than `2 ^ 31`
calls, the range of the `int` counter `treeSize`), and afterwards
`contains x` is true exactly when `x` occurs in `xs` and `size` is the number
of distinct elements of `xs`. -/
theorem unbalanced_set_correct [LinearOrder α] (xs : List α) (hlen : xs.length < 2 ^ 31) :
    ∃ s, addAll false xs = some s ∧ (∀ x, contains s x = true ↔ x ∈ xs) ∧
      size s = xs.toFinset.card := by
  obtain ⟨s, hs, inv⟩ := plainInv_addMany xs [] (new false) plainInv_new
  rw [List.nil_append] at inv
  refine ⟨s, hs, fun x => ?_, ?_⟩
  · rw [← inv.mem x]; exact containsFrom_iff_mem_keys x s.root inv.ordered
  · have hcard : xs.toFinset.card < 2 ^ 31 := lt_of_le_of_lt (List.toFinset_card_le xs) hlen
    simp only [size, inv.count]
    have hU : (UINT : Int) = 2 ^ 32 := by norm_num [UINT]
    rw [hU, Int.emod_eq_of_lt (by positivity) (by
      have : (xs.toFinset.card : Int) < 2 ^ 31 := by exact_mod_cast hcard
      omega)]
    simp

/-- Witness of C18: the calls `add 2`, `add 3`, `add 1`, `add 3`. -/
theorem unbalanced_set_correct_witness :
    [2, 3, 1, 3].length < 2 ^ 31 ∧
      ∃ s : AVLSet Nat, addAll false [2, 3, 1, 3] = some s ∧
        (∀ x, contains s x = true ↔ x ∈ [2, 3, 1, 3]) ∧
        size s = [2, 3, 1, 3].toFinset.card :=
  ⟨by decide, unbalanced_set_correct [2, 3, 1, 3] (by decide)⟩

end AVLSet

/-! ## Properties of the word checker -/

namespace WordChecker

theorem foldl_invariant {β ι : Type} (P : β → Prop) (f : β → ι → β)
    (hf : ∀ v i, P v → P (f v i)) (l : List ι) (v : β) (hv : P v) : P (l.foldl f v) := by
  induction l generalizing v with
  | nil => exact hv
  | cons i t ih => exact ih (f v i) (hf v i hv)

theorem mem_pushIfAbsent (v : List (List Char)) (b x : List Char) :
    x ∈ pushIfAbsent v b ↔ x ∈ v ∨ x = b := by
  unfold pushIfAbsent
  by_cases h : b ∈ v
  · simp only [h, if_true]
    constructor
    · exact Or.inl
    · rintro (h1 | h1)
      · exact h1
      · rw [h1]; exact h
  · simp [h]

theorem pushIfAbsent_sound (contains : List Char → Bool) (v : List (List Char))
    (b : List Char) (hv : Sound contains v) (hb : contains b = true) :
    Sound contains (pushIfAbsent v b) := by
  refine ⟨?_, ?_⟩
  · unfold pushIfAbsent
    by_cases h : b ∈ v
    · simp only [h, if_true]; exact hv.1
    · simp only [h, if_false]
      exact List.Nodup.append hv.1 (List.nodup_singleton b)
        (fun y hy hy2 => h (by rw [List.mem_singleton] at hy2; rw [← hy2]; exact hy))
  · intro x hx
    rcases (mem_pushIfAbsent v b x).1 hx with h1 | h1
    · exact hv.2 x h1
    · rw [h1]; exact hb

theorem suggest_sound (contains : List Char → Bool) (v : List (List Char))
    (b : List Char) (hv : Sound contains v) : Sound contains (suggest contains v b) := by
  unfold suggest
  by_cases h : contains b = true
  · simp only [h, if_true]; exact pushIfAbsent_sound contains v b hv h
  · simp only [h]; exact hv

theorem suggest_mono (contains : List Char → Bool) (v : List (List Char))
    (b x : List Char) (hx : x ∈ v) : x ∈ suggest contains v b := by
  unfold suggest
  by_cases h : contains b = true
  · simp only [h, if_true]; exact (mem_pushIfAbsent v b x).2 (Or.inl hx)
  · simp only [h]; exact hx

theorem suggest_self (contains : List Char → Bool) (v : List (List Char))
    (b : List Char) (hb : contains b = true) : b ∈ suggest contains v b := by
  unfold suggest
  simp only [hb, if_true]
  exact (mem_pushIfAbsent v b b).2 (Or.inr rfl)

theorem spaceLoop_sound (contains : List Char → Bool) (word : List Char)
    (v : List (List Char)) (hv : Sound contains v) : Sound contains (spaceLoop contains word v) := by
  refine foldl_invariant (Sound contains) _ ?_ _ v hv
  intro u i hu
  by_cases h : (contains (substr word (i + 1) word.length) &&
      contains (substr word i (i + 1))) = true
  · simp only [h, if_true]
    rw [Bool.and_eq_true] at h
    exact pushIfAbsent_sound contains _ _ (pushIfAbsent_sound contains u _ hu h.2) h.1
  · simp only [h]; exact hu

theorem spaceLoop_mono (contains : List Char → Bool) (word : List Char)
    (v : List (List Char)) (x : List Char) (hx : x ∈ v) : x ∈ spaceLoop contains word v := by
  refine foldl_invariant (fun u => x ∈ u) _ ?_ _ v hx
  intro u i hu
  by_cases h : (contains (substr word (i + 1) word.length) &&
      contains (substr word i (i + 1))) = true
  · simp only [h, if_true]
    exact (mem_pushIfAbsent _ _ x).2 (Or.inl ((mem_pushIfAbsent _ _ x).2 (Or.inl hu)))
  · simp only [h]; exact hu

theorem insertLoop_sound (contains : List Char → Bool) (word : List Char)
    (v : List (List Char)) (hv : Sound contains v) :
    Sound contains (insertLoop contains word v) := by
  refine foldl_invariant (Sound contains) _ ?_ _ v hv
  intro u i hu
  exact foldl_invariant (Sound contains) _ (fun w _ hw => suggest_sound contains w _ hw) _ u hu

theorem insertLoop_mono (contains : List Char → Bool) (word : List Char)
    (v : List (List Char)) (x : List Char) (hx : x ∈ v) :
    x ∈ insertLoop contains word v := by
  refine foldl_invariant (fun u => x ∈ u) _ ?_ _ v hx
  intro u i hu
  exact foldl_invariant (fun u => x ∈ u) _ (fun w _ hw => suggest_mono contains w _ x hw) _ u hu

theorem replaceLoop_sound (contains : List Char → Bool) (word : List Char)
    (v : List (List Char)) (hv : Sound contains v) :
    Sound contains (replaceLoop contains word v) := by
  refine foldl_invariant (Sound contains) _ ?_ _ v hv
  intro u i hu
  exact foldl_invariant (Sound contains) _ (fun w _ hw => suggest_sound contains w _ hw) _ u hu

theorem deleteLoop_sound (contains : List Char → Bool) (word : List Char)
    (v : List (List Char)) (hv : Sound contains v) :
    Sound contains (deleteLoop contains word v) :=
  foldl_invariant (Sound contains) _ (fun w _ hw => suggest_sound contains w _ hw) _ v hv

theorem swapLoop_sound (contains : List Char → Bool) (word : List Char)
    (v : List (List Char)) (hv : Sound contains v) :
    Sound contains (swapLoop contains word v) :=
  foldl_invariant (Sound contains) _ (fun w _ hw => suggest_sound contains w _ hw) _ v hv

theorem foldl_reaches {ι : Type} (x : List Char) (f : List (List Char) → ι → List (List Char))
    (hmono : ∀ v j, x ∈ v → x ∈ f v j) (l : List ι) (i : ι) (hi : i ∈ l)
    (hit : ∀ v, x ∈ f v i) (v : List (List Char)) : x ∈ l.foldl f v := by
  induction l generalizing v with
  | nil => simp at hi
  | cons j t ih =>
    rcases List.mem_cons.1 hi with h1 | h1
    · subst h1
      exact foldl_invariant (fun u => x ∈ u) f hmono t (f v i) (hit v)
    · exact ih h1 (f v j)

theorem swapPair_eq_swapAdjacent (w : List Char) (i : Nat) (hi : i + 1 < w.length) :
    swapPair w i = swapAdjacent w i := by
  induction w generalizing i with
  | nil => simp at hi
  | cons c t ih =>
    cases i with
    | zero =>
      cases t with
      | nil => simp at hi
      | cons d u => simp [swapPair, swapAdjacent]
    | succ j =>
      have hj : j + 1 < t.length := by simpa using hi
      have h := ih j hj
      simp only [swapPair, swapAdjacent, List.getD_cons_succ, List.set_cons_succ,
        List.drop_succ_cons, List.take_succ_cons] at h ⊢
      rw [h]
      cases t.drop j with
      | nil => rfl
      | cons a r =>
        cases r with
        | nil => rfl
        | cons b r2 => rfl

/-- C19. `findSuggestions` proposes adjacent-character swaps: for every word
set, every word `w` and every index `i` with `i + 1 < |w|`, if the string
obtained from `w` by swapping the characters at the positions `i` and `i + 1`
is in the word set, then `findSuggestions w` returns a list in which that
string occurs. -/
theorem findSuggestions_has_swap (contains : List Char → Bool) (w : List Char) (i : Nat)
    (hi : i + 1 < w.length) (hc : contains (swapAdjacent w i) = true) :
    ∃ r, findSuggestions contains w = some r ∧ swapAdjacent w i ∈ r := by
  have hne : ¬ w.length = 0 := by omega
  have hfs : findSuggestions contains w =
      some (spaceLoop contains w (insertLoop contains w (swapLoop contains w
        (replaceLoop contains w (deleteLoop contains w []))))) := by
    simp only [findSuggestions, hne, if_false]
  refine ⟨_, hfs, ?_⟩
  apply spaceLoop_mono
  apply insertLoop_mono
  unfold swapLoop
  refine foldl_reaches _ _ (fun v j hx => suggest_mono contains v _ _ hx)
    (List.range w.length) i (List.mem_range.2 (by omega)) ?_ _
  intro v
  rw [swapPair_eq_swapAdjacent w i hi]
  exact suggest_self contains v _ hc

set_option maxRecDepth 1000000 in
/-- Witness of C19, the test `canGenerateSuggestions`: with the word set
`ABDC`, `ZZZZZ` and the word `ABCD`, the swap at the positions `2` and `3`
gives `ABDC`, and `findSuggestions` returns exactly the list `[ABDC]`. -/
theorem findSuggestions_has_swap_witness :
    (2 + 1 < "ABCD".toList.length ∧ testWords (swapAdjacent "ABCD".toList 2) = true) ∧
      (∃ r, findSuggestions testWords "ABCD".toList = some r ∧
        swapAdjacent "ABCD".toList 2 ∈ r) ∧
      swapAdjacent "ABCD".toList 2 = "ABDC".toList ∧
      findSuggestions testWords "ABCD".toList = some ["ABDC".toList] :=
  ⟨⟨by decide, by decide⟩,
    findSuggestions_has_swap testWords "ABCD".toList 2 (by decide) (by decide),
    by decide, by decide⟩

/-- C20. `findSuggestions` only returns words of the word set, each once: for
every word set and every non-empty word `w`, `findSuggestions w` returns a
list, every string of the list satisfies `contains`, and no string occurs
twice in it. -/
theorem findSuggestions_sound (contains : List Char → Bool) (w : List Char) (hw : w ≠ []) :
    ∃ r, findSuggestions contains w = some r ∧ (∀ x ∈ r, contains x = true) ∧ r.Nodup := by
  have hne : ¬ w.length = 0 := fun h => hw (List.length_eq_zero.1 h)
  have h0 : Sound contains [] := ⟨List.nodup_nil, fun x hx => by simp at hx⟩
  have h5 := spaceLoop_sound contains w _
    (insertLoop_sound contains w _
      (swapLoop_sound contains w _
        (replaceLoop_sound contains w _ (deleteLoop_sound contains w [] h0))))
  have hfs : findSuggestions contains w =
      some (spaceLoop contains w (insertLoop contains w (swapLoop contains w
        (replaceLoop contains w (deleteLoop contains w []))))) := by
    simp only [findSuggestions, hne, if_false]
  exact ⟨_, hfs, h5.2, h5.1⟩

set_option maxRecDepth 1000000 in
/-- Witness of C20: the word `ABCD` with the word set of the test; the member
`ZZZZZ` of the word set is not in the returned list. -/
theorem findSuggestions_sound_witness :
    "ABCD".toList ≠ [] ∧
      (∃ r, findSuggestions testWords "ABCD".toList = some r ∧
        (∀ x ∈ r, testWords x = true) ∧ r.Nodup) ∧
      (findSuggestions testWords "ABCD".toList).map (fun r => decide ("ZZZZZ".toList ∈ r))
        = some false :=
  ⟨by decide, findSuggestions_sound testWords "ABCD".toList (by decide), by decide⟩

end WordChecker

/-! ## The rotation primitives -/

namespace AVLSet

variable {α : Type}

/-- C21. Evaluation of the rotation primitives.  For every node `X` with
right child `Y`, after `leftRotate` the tree at the reference is still rooted
at `X`, with the left subtree of `X` and the former left subtree of `Y`: it
has lost `Y` and the right subtree of `Y`; the tree rooted at `Y` that the
claim describes is built, but nothing points to it.  `rightRotate` is the
mirror image, and it leaves the `depth` of `Y` as it was.  The calls shown
are the ones made by `add 2` after `add 1`, `add 3` on a balancing set,
which leaves the node `1` alone in the tree. -/
theorem rotations_keep_old_root :
    (∀ (x y : Nat) (l b r : Node Nat) (d dy : Int),
        (leftRotate (.mk x l (.mk y b r dy) d)).map (fun p => keys p.1)
            = some (keys l ++ x :: keys b) ∧
          (rightRotate (.mk x (.mk y l b dy) r d)).map (fun p => keys p.1)
            = some (keys b ++ x :: keys r) ∧
          (rightRotate (.mk x (.mk y l b dy) r d)).map (fun p => getDepth p.2) = some dy) ∧
      rightRotate (Node.mk 3 (.mk 2 .null .null 1) .null 2 : Node Nat) =
        some (.mk 3 .null .null 1, .mk 2 .null (.mk 3 .null .null 1) 1) ∧
      leftRotate (Node.mk 1 .null (.mk 3 .null .null 1) 1 : Node Nat) =
        some (.mk 1 .null .null 1, .mk 3 (.mk 1 .null .null 1) .null 2) ∧
      addAll true [1, 3] =
        some ({ treeSize := 2, treeHeight := 0, balance := true,
                root := .mk 1 .null (.mk 3 .null .null 1) 1 } : AVLSet Nat) ∧
      addAll true [1, 3, 2] =
        some ({ treeSize := 3, treeHeight := 0, balance := true,
                root := .mk 1 .null .null 1 } : AVLSet Nat) := by
  refine ⟨fun x y l b r d dy => ⟨rfl, rfl, rfl⟩, ?_, ?_, ?_, ?_⟩ <;> decide

end AVLSet

/-! ## The load bound of the hash set as coded -/

namespace HashSet

variable {α : Type}

theorem add_capacity [DecidableEq α] (hash : α → Nat) (s : HashSet α) (e : α) :
    (add hash s e).capacity =
      if contains hash s e = false ∧ loadExceeds s = true then (s.capacity * 2) % UINT
      else s.capacity := by
  by_cases hc : contains hash s e = true
  · simp [add, hc]
  · have hc2 : contains hash s e = false := by simpa using hc
    by_cases hl : loadExceeds s = true
    · simp only [add, hc2, hl, Bool.not_false, if_true, and_self]
      rw [rehash_eq, rehashChain_capacity]
      rfl
    · have hl2 : loadExceeds s = false := by simpa using hl
      simp only [add, hc2, hl2, Bool.not_false, if_true]
      simp [addNode]

theorem loadExceeds_of_capacity_le (s : HashSet α) (hpos : 0 < s.capacity)
    (h : s.capacity ≤ s.currSize) : loadExceeds s = true := by
  rw [loadExceeds_iff]
  exact (Nat.le_div_iff_mul_le hpos).2 (by omega)

theorem size_le_capacity [DecidableEq α] (hash : α → Nat) (xs : List α)
    (hlen : xs.length ≤ 2 ^ 31) : (addAll hash xs).currSize ≤ (addAll hash xs).capacity := by
  induction xs using List.reverseRecOn with
  | nil =>
    show (0 : Nat) ≤ _
    exact Nat.zero_le _
  | append_singleton ys e ih =>
    have hl : ys.length < 2 ^ 31 := by
      simp only [List.length_append, List.length_singleton] at hlen
      omega
    have ihy := ih (le_of_lt hl)
    have h1 := inv_addAll hash ys (le_of_lt hl)
    have h2 := inv_add hash ys _ h1 hl e
    have hsz : (addAll hash ys).currSize < 2 ^ 31 := by
      rw [h1.sizeCard]
      exact lt_of_le_of_lt (List.toFinset_card_le ys) hl
    have hU : UINT = 2 ^ 32 := rfl
    rw [addAll_snoc, add_capacity]
    by_cases hin : e ∈ ys
    · have hc : contains hash (addAll hash ys) e = true :=
        (contains_iff hash _ e).2 ((h1.mem e).2 hin)
      rw [h2.sizeCard, card_snoc_of_mem ys e hin, ← h1.sizeCard]
      rw [if_neg (by rintro ⟨h, _⟩; rw [hc] at h; exact Bool.noConfusion h)]
      exact ihy
    · have hc : contains hash (addAll hash ys) e = false := by
        cases hb : contains hash (addAll hash ys) e with
        | false => rfl
        | true => exact absurd ((h1.mem e).1 ((contains_iff hash _ e).1 hb)) hin
      rw [h2.sizeCard, card_snoc_of_not_mem ys e hin, ← h1.sizeCard]
      by_cases hload : loadExceeds (addAll hash ys) = true
      · have hcap := capacity_le_of_loadExceeds _ hload
        rw [if_pos ⟨hc, hload⟩, Nat.mod_eq_of_lt (by omega)]
        have := h1.wf.pos
        omega
      · have hlt : (addAll hash ys).currSize < (addAll hash ys).capacity := by
          by_contra hge
          exact hload (loadExceeds_of_capacity_le _ h1.wf.pos (by omega))
        rw [if_neg (fun h => hload h.2)]
        omega

/-- C22. The load bound of the hash set as coded: after any sequence `xs` of
`add` calls on a new set (short enough that the `unsigned int` capacity stays
below the overflow limit), `size ≤ capacity`; a further `add` changes the
capacity exactly when the element is not contained and `size` equals the
capacity, and the new capacity is then exactly twice the old one. -/
theorem load_bound_as_coded [DecidableEq α] (hash : α → Nat) (xs : List α)
    (hlen : xs.length < 2 ^ 31) (e : α) :
    size (addAll hash xs) ≤ (addAll hash xs).capacity ∧
      size (add hash (addAll hash xs) e) ≤ (add hash (addAll hash xs) e).capacity ∧
      ((add hash (addAll hash xs) e).capacity ≠ (addAll hash xs).capacity ↔
        (contains hash (addAll hash xs) e = false ∧
          size (addAll hash xs) = (addAll hash xs).capacity)) ∧
      ((add hash (addAll hash xs) e).capacity ≠ (addAll hash xs).capacity →
        (add hash (addAll hash xs) e).capacity = 2 * (addAll hash xs).capacity) := by
  have hle := size_le_capacity hash xs (le_of_lt hlen)
  have hle2 : (addAll hash (xs ++ [e])).currSize ≤ (addAll hash (xs ++ [e])).capacity :=
    size_le_capacity hash (xs ++ [e]) (by
      simp only [List.length_append, List.length_singleton]; omega)
  rw [addAll_snoc] at hle2
  have h1 := inv_addAll hash xs (le_of_lt hlen)
  have hpos := h1.wf.pos
  have hsz : (addAll hash xs).currSize < 2 ^ 31 := by
    rw [h1.sizeCard]
    exact lt_of_le_of_lt (List.toFinset_card_le xs) hlen
  have hU : UINT = 2 ^ 32 := rfl
  have hcapEq := add_capacity hash (addAll hash xs) e
  refine ⟨hle, hle2, ?_, ?_⟩
  · by_cases hres : contains hash (addAll hash xs) e = false ∧
        loadExceeds (addAll hash xs) = true
    · have hcap := capacity_le_of_loadExceeds _ hres.2
      rw [if_pos hres, Nat.mod_eq_of_lt (by omega)] at hcapEq
      constructor
      · intro _
        exact ⟨hres.1, le_antisymm hle hcap⟩
      · intro _
        rw [hcapEq]; omega
    · rw [if_neg hres] at hcapEq
      constructor
      · intro hne; exact absurd hcapEq hne
      · rintro ⟨hc, hfull⟩
        exact absurd ⟨hc, loadExceeds_of_capacity_le _ hpos (le_of_eq hfull.symm)⟩ hres
  · intro hne
    by_cases hres : contains hash (addAll hash xs) e = false ∧
        loadExceeds (addAll hash xs) = true
    · have hcap := capacity_le_of_loadExceeds _ hres.2
      rw [if_pos hres, Nat.mod_eq_of_lt (by omega)] at hcapEq
      rw [hcapEq]; omega
    · rw [if_neg hres] at hcapEq
      exact absurd hcapEq hne

/-- Witness of C22: ten distinct elements fill the default table, and the
`add` of the eleventh element `10` starts with `size` equal to the capacity. -/
theorem load_bound_as_coded_witness :
    (List.range 10).length < 2 ^ 31 ∧
      (size (addAll (fun n => n) (List.range 10))
          ≤ (addAll (fun n => n) (List.range 10)).capacity ∧
        size (add (fun n => n) (addAll (fun n => n) (List.range 10)) 10)
          ≤ (add (fun n => n) (addAll (fun n => n) (List.range 10)) 10).capacity ∧
        ((add (fun n => n) (addAll (fun n => n) (List.range 10)) 10).capacity
            ≠ (addAll (fun n => n) (List.range 10)).capacity ↔
          (contains (fun n => n) (addAll (fun n => n) (List.range 10)) 10 = false ∧
            size (addAll (fun n => n) (List.range 10))
              = (addAll (fun n => n) (List.range 10)).capacity)) ∧
        ((add (fun n => n) (addAll (fun n => n) (List.range 10)) 10).capacity
            ≠ (addAll (fun n => n) (List.range 10)).capacity →
          (add (fun n => n) (addAll (fun n => n) (List.range 10)) 10).capacity
            = 2 * (addAll (fun n => n) (List.range 10)).capacity)) :=
  ⟨by decide, load_bound_as_coded (fun n => n) (List.range 10) (by decide) 10⟩

end HashSet

/-! ## Ascending insertion into a balancing set -/

namespace AVLSet

variable {α : Type}

theorem getDepth_chain (xs : List α) :
    getDepth (chain xs) = 0 ∨ getDepth (chain xs) = 1 := by
  cases xs with
  | nil => exact Or.inl rfl
  | cons x t => exact Or.inr rfl

theorem rebalance_chain [LinearOrder α] (x : α) (t : List α) :
    rebalance (.mk x .null (chain t) 1) = some (.mk x .null (chain t) 1) := by
  have h0 : getDepth (Node.null : Node α) = 0 := rfl
  have g1 : ¬ (getDepth (Node.null : Node α) - getDepth (chain t) < -1) := by
    rcases getDepth_chain t with h | h <;> rw [h0, h] <;> decide
  have g2 : ¬ (getDepth (Node.null : Node α) - getDepth (chain t) > 1) := by
    rcases getDepth_chain t with h | h <;> rw [h0, h] <;> decide
  simp only [rebalance, caseRightRight, caseRightLeft, caseLeftLeft, caseLeftRight, g1, g2,
    if_false, Option.some_bind]

theorem guardsOff_chain (xs : List α) : guardsOff (chain xs) = true := by
  induction xs with
  | nil => rfl
  | cons x t ih =>
    have h0 : getDepth (Node.null : Node α) = 0 := rfl
    have g1 : ¬ (getDepth (Node.null : Node α) - getDepth (chain t) < -1) := by
      rcases getDepth_chain t with h | h <;> rw [h0, h] <;> decide
    have g2 : ¬ (getDepth (Node.null : Node α) - getDepth (chain t) > 1) := by
      rcases getDepth_chain t with h | h <;> rw [h0, h] <;> decide
    simp [chain, guardsOff, g1, g2, ih]

theorem keys_chain (xs : List α) : keys (chain xs) = xs := by
  induction xs with
  | nil => rfl
  | cons x t ih => simp [chain, keys, ih]

theorem containsFrom_chain [LinearOrder α] (e : α) (xs : List α) (h : ∀ x ∈ xs, x < e) :
    containsFrom e (chain xs) = false := by
  induction xs with
  | nil => rfl
  | cons x t ih =>
    have hx : x < e := h x (List.mem_cons_self _ _)
    have hne : ¬ x = e := ne_of_lt hx
    simp only [chain, containsFrom, hne, if_false, gt_iff_lt, hx, if_true]
    exact ih (fun y hy => h y (List.mem_cons_of_mem _ hy))

theorem addElement_chain [LinearOrder α] (e : α) (xs : List α) (h : ∀ x ∈ xs, x < e) :
    addElement true e (chain xs) = some (chain (xs ++ [e])) := by
  induction xs with
  | nil => rfl
  | cons x t ih =>
    have hx : x < e := h x (List.mem_cons_self _ _)
    have hnot : ¬ e < x := not_lt.2 (le_of_lt hx)
    have iht := ih (fun y hy => h y (List.mem_cons_of_mem _ hy))
    simp only [chain, addElement, hnot, if_false, gt_iff_lt, hx, if_true, iht,
      Option.some_bind, List.cons_append]
    exact rebalance_chain x (t ++ [e])

theorem addMany_chain [LinearOrder α] (ys pre : List α) (k : Int)
    (h : (pre ++ ys).Pairwise (fun a b => a < b)) :
    addMany (chainSet k pre) ys =
      some (chainSet (k + ys.length) (pre ++ ys)) := by
  induction ys generalizing pre k with
  | nil => simp [addMany, chainSet]
  | cons y t ih =>
    have hlt : ∀ x ∈ pre, x < y := by
      intro x hx
      exact (List.pairwise_append.1 h).2.2 x hx y (List.mem_cons_self _ _)
    have hc : contains (chainSet k pre) y = false := containsFrom_chain y pre hlt
    have hadd : add (chainSet k pre) y =
        some (chainSet (k + 1) (pre ++ [y])) := by
      have he : addElement (chainSet k pre).balance y (chainSet k pre).root =
          some (chain (pre ++ [y])) := addElement_chain y pre hlt
      unfold add
      rw [hc, he]
      rfl
    have h2 : ((pre ++ [y]) ++ t).Pairwise (fun a b => a < b) := by
      simpa using h
    have ih2 := ih (pre ++ [y]) (k + 1) h2
    simp only [addMany, hadd, Option.some_bind, ih2, List.append_assoc, List.singleton_append,
      List.length_cons, Nat.cast_add, Nat.cast_one]
    congr 2
    omega

theorem addAll_chain [LinearOrder α] (xs : List α) (h : xs.Pairwise (fun a b => a < b)) :
    addAll true xs =
      some (chainSet xs.length xs) := by
  have := addMany_chain xs [] 0 (by simpa using h)
  simpa [addAll, new, chain, chainSet] using this

/-- C23. Ascending insertion never rebalances: for every strictly increasing
sequence `xs` of at least one element added to a new balancing set, every
`add` completes (after the first `k` calls, for every `k`, the tree is the
right-only chain of the first `k` elements, root first, every node with the
`depth` of a new leaf, and with every guard of the rebalancing block false at
every node, so that no rotation is performed), the final tree is the
right-only chain of `xs`, and `height()` returns `1`. -/
theorem ascending_insertion_chain [LinearOrder α] (xs : List α)
    (hs : xs.Pairwise (fun a b => a < b)) (hne : xs ≠ []) :
    (∀ k, addAll true (xs.take k) =
          some (chainSet (xs.take k).length (xs.take k)) ∧
        guardsOff (chain (xs.take k)) = true) ∧
      addAll true xs =
        some (chainSet xs.length xs) ∧
      keys (chain xs) = xs ∧
      (addAll true xs).map height = some 1 := by
  refine ⟨fun k => ⟨addAll_chain _ (hs.sublist (List.take_sublist k xs)),
    guardsOff_chain _⟩, addAll_chain xs hs, keys_chain xs, ?_⟩
  rw [addAll_chain xs hs]
  cases xs with
  | nil => exact absurd rfl hne
  | cons x t => rfl

/-- Witness of C23: the calls `add 1`, `add 2`, `add 3`, `add 4`. -/
theorem ascending_insertion_chain_witness :
    ([1, 2, 3, 4].Pairwise (fun a b => a < b) ∧ [1, 2, 3, 4] ≠ []) ∧
      ((∀ k, addAll true ([1, 2, 3, 4].take k) =
            some (chainSet ([1, 2, 3, 4].take k).length ([1, 2, 3, 4].take k)) ∧
          guardsOff (chain ([1, 2, 3, 4].take k)) = true) ∧
        addAll true [1, 2, 3, 4] =
          some (chainSet [1, 2, 3, 4].length [1, 2, 3, 4]) ∧
        keys (chain [1, 2, 3, 4]) = [1, 2, 3, 4] ∧
        (addAll true [1, 2, 3, 4]).map height = some 1) :=
  ⟨⟨by decide, by decide⟩, ascending_insertion_chain [1, 2, 3, 4] (by decide) (by decide)⟩

end AVLSet

end WordSets
